import Mathlib

/-!
# Verification of `lxml_xpath_ipaddress`

A shallow embedding of the repository `lxml-xpath-ipaddress`
(`src/lxml_xpath_ipaddress/__init__.py`) together with the fragment of the
Python standard library `ipaddress` module that the repository delegates to.

Conventions of the embedding:

* Python strings are `String` / `List Char`; a Python value that may be
  `None` is an `Option _` (with `none` for `None`).
* A Python function that can raise has result type `Except PyErr _`; the
  repository catches every exception with a bare `except:`, so a single
  error value suffices.
* Parsing primitives of the external `ipaddress` module are modelled as
  `Option`-returning functions on `List Char` (`none` = the parse raises
  `ValueError`), following the module's documented string grammar
  (`_parse_octet`, `_ip_int_from_string`, `_parse_hextet`,
  `_prefix_from_prefix_string`, `_prefix_from_ip_string`, strict network
  construction, `__contains__` range test, `_string_from_ip_int`,
  `_compress_hextets`).
-/

namespace LxmlIp

/-! ## Character classes and digit values -/

def isDecDigit (c : Char) : Bool := '0' ≤ c && c ≤ '9'

def isHexDigitB (c : Char) : Bool :=
  isDecDigit c || ('a' ≤ c && c ≤ 'f') || ('A' ≤ c && c ≤ 'F')

def decDigitVal (c : Char) : Nat := c.toNat - '0'.toNat

def hexDigitVal (c : Char) : Nat :=
  if isDecDigit c then decDigitVal c
  else if 'a' ≤ c && c ≤ 'f' then c.toNat - 'a'.toNat + 10
  else c.toNat - 'A'.toNat + 10

/-- Value of a decimal digit string (`int(s, 10)` on an all-digit string). -/
def decValue (l : List Char) : Nat := l.foldl (fun a c => a * 10 + decDigitVal c) 0

/-- Value of a hexadecimal digit string (`int(s, 16)` on an all-hex string). -/
def hexValue (l : List Char) : Nat := l.foldl (fun a c => a * 16 + hexDigitVal c) 0

/-- Python `str.split(sep)` for a one-character separator: always returns at
least one (possibly empty) part; `"".split(sep) == [""]`. -/
def splitOnChar (sep : Char) : List Char → List (List Char)
  | [] => [[]]
  | c :: cs =>
    match splitOnChar sep cs with
    | [] => [[]]
    | p :: ps => if c = sep then [] :: p :: ps else (c :: p) :: ps

/-! ## IPv4 string parsing (`IPv4Address._ip_int_from_string`) -/

/-- `ipaddress._BaseV4._parse_octet`: 1-3 decimal digits, value ≤ 255,
no leading zero. -/
def parseOctet (l : List Char) : Option Nat :=
  if l.isEmpty then none
  else if ¬ l.all isDecDigit then none
  else if 3 < l.length then none
  else if 255 < decValue l then none
  else if l.headD ' ' = '0' ∧ 1 < l.length then none
  else some (decValue l)

/-- `ipaddress._BaseV4._ip_int_from_string`: exactly four octets joined by
`'.'`, assembled big-endian. -/
def parseIPv4AddressChars (l : List Char) : Option Nat :=
  if l.isEmpty then none
  else if (splitOnChar '.' l).length ≠ 4 then none
  else
    match (splitOnChar '.' l).mapM parseOctet with
    | none => none
    | some vals => some (vals.foldl (fun a v => a * 256 + v) 0)

/-! ## IPv6 string parsing (`IPv6Address._ip_int_from_string`) -/

/-- `ipaddress._BaseV6._parse_hextet`: at most 4 hex digits, nonempty
(`int('', 16)` raises). -/
def parseHextet (l : List Char) : Option Nat :=
  if ¬ l.all isHexDigitB then none
  else if 4 < l.length then none
  else if l.isEmpty then none
  else some (hexValue l)

/-- Minimal lowercase hex digits, i.e. `'%x' % n`; 32 units of fuel cover
every value below `16^32` (in particular every 128-bit value). -/
def toHexCharsAux : Nat → Nat → List Char
  | 0, _ => []
  | fuel+1, n =>
    if n < 16 then [Char.ofNat (if n < 10 then '0'.toNat + n else 'a'.toNat + (n - 10))]
    else toHexCharsAux fuel (n / 16) ++
      [Char.ofNat (if n % 16 < 10 then '0'.toNat + n % 16 else 'a'.toNat + (n % 16 - 10))]

def toHexChars (n : Nat) : List Char := toHexCharsAux 32 n

/-- Minimal decimal digits, i.e. `str(n)` for a natural number. -/
def toDecCharsAux : Nat → Nat → List Char
  | 0, _ => []
  | fuel+1, n =>
    if n < 10 then [Char.ofNat ('0'.toNat + n)]
    else toDecCharsAux fuel (n / 10) ++ [Char.ofNat ('0'.toNat + n % 10)]

def toDecChars (n : Nat) : List Char := toDecCharsAux 32 n

/-- The step of `_ip_int_from_string` that rewrites a trailing dotted-quad
(`'.' in parts[-1]`) into two hextets `'%x' % ((v4 >> 16) & 0xFFFF)` and
`'%x' % (v4 & 0xFFFF)`. -/
def v6ExpandV4 (parts : List (List Char)) : Option (List (List Char)) :=
  match parts.getLast? with
  | none => none
  | some last =>
    if '.' ∈ last then
      match parseIPv4AddressChars last with
      | none => none
      | some v4 =>
        some (parts.dropLast ++
          [toHexChars ((v4 >>> 16) &&& 0xFFFF), toHexChars (v4 &&& 0xFFFF)])
    else some parts

/-- The `'::'` bookkeeping of `_ip_int_from_string`: scan the interior parts
for the (at most one) empty part, apply the `^:`-requires-`^::` and
`:$`-requires-`::$` endpoint rules, and return the number of leading parts,
trailing parts and skipped (zero) groups. -/
def v6ResolveFin (hi lo : Nat) : Option (Nat × Nat × Nat) :=
  if 8 ≤ hi + lo then none else some (hi, lo, 8 - (hi + lo))

def v6ResolveLo (parts : List (List Char)) (k hi : Nat) : Option (Nat × Nat × Nat) :=
  if (parts.getLastD [' ']).isEmpty then
    if parts.length - k - 2 ≠ 0 then none else v6ResolveFin hi 0
  else v6ResolveFin hi (parts.length - k - 1)

def v6ResolveSkip (parts : List (List Char)) (k : Nat) : Option (Nat × Nat × Nat) :=
  if (parts.headD [' ']).isEmpty then
    if k - 1 ≠ 0 then none else v6ResolveLo parts k 0
  else v6ResolveLo parts k k

def v6Resolve (parts : List (List Char)) : Option (Nat × Nat × Nat) :=
  if 2 ≤ (parts.drop 1).dropLast.countP (·.isEmpty) then none
  else if (parts.drop 1).dropLast.countP (·.isEmpty) = 1 then
    v6ResolveSkip parts ((parts.drop 1).dropLast.findIdx (·.isEmpty) + 1)
  else
    if parts.length ≠ 8 then none
    else if (parts.headD [' ']).isEmpty then none
    else if (parts.getLastD [' ']).isEmpty then none
    else some (8, 0, 0)

/-- The assembly loop of `_ip_int_from_string`:
`ip_int <<= 16; ip_int |= parse_hextet(part)`. -/
def foldHextets (init : Nat) (hs : List Nat) : Nat :=
  hs.foldl (fun a h => (a <<< 16) ||| h) init

def v6Assemble (parts : List (List Char)) (hi lo skipped : Nat) : Option Nat :=
  match (parts.take hi).mapM parseHextet with
  | none => none
  | some hs =>
    match (parts.drop (parts.length - lo)).mapM parseHextet with
    | none => none
    | some ls => some (foldHextets ((foldHextets 0 hs) <<< (16 * skipped)) ls)

/-- `ipaddress._BaseV6._ip_int_from_string`. -/
def parseIPv6AddressChars (l : List Char) : Option Nat :=
  if l.isEmpty then none
  else if (splitOnChar ':' l).length < 3 then none
  else
    match v6ExpandV4 (splitOnChar ':' l) with
    | none => none
    | some parts =>
      if 9 < parts.length then none
      else
        match v6Resolve parts with
        | none => none
        | some (hi, lo, skipped) => v6Assemble parts hi lo skipped

/-! ## Prefix lengths, netmasks, interface and network forms -/

/-- Trailing zero bits, with `fuel` ≥ the bit width of `n`. -/
def tzAux : Nat → Nat → Nat
  | 0, _ => 0
  | fuel+1, n => if n % 2 = 1 then 0 else tzAux fuel (n / 2) + 1

/-- `ipaddress._count_righthand_zero_bits`. -/
def countRighthandZeroBits (n bits : Nat) : Nat :=
  if n = 0 then bits else min bits (tzAux bits n)

def prefixFromIpIntAux (w tz ip : Nat) : Option Nat :=
  if ip >>> tz = 2 ^ (w - tz) - 1 then some (w - tz) else none

/-- `ipaddress._IPAddressBase._prefix_from_ip_int`: accept `1*0*` masks. -/
def prefixFromIpInt (w ip : Nat) : Option Nat :=
  prefixFromIpIntAux w (countRighthandZeroBits ip w) ip

/-- `_prefix_from_ip_string`: parse as an address of the family and accept a
netmask (`1*0*`) or hostmask (`0*1*`) pattern. -/
def prefixFromIpChars (w : Nat) (addrParse : List Char → Option Nat) (l : List Char) :
    Option Nat :=
  match addrParse l with
  | none => none
  | some ip =>
    match prefixFromIpInt w ip with
    | some p => some p
    | none => prefixFromIpInt w (ip ^^^ (2 ^ w - 1))

/-- `_make_netmask`'s string dispatch: an all-decimal string is a prefix
length (`_prefix_from_prefix_string`, bound by the family width), anything
else falls back to `_prefix_from_ip_string`. -/
def parsePrefixLen (w : Nat) (addrParse : List Char → Option Nat) (l : List Char) :
    Option Nat :=
  if ¬ l.isEmpty ∧ l.all isDecDigit then
    if decValue l ≤ w then some (decValue l) else prefixFromIpChars w addrParse l
  else prefixFromIpChars w addrParse l

/-- The netmask integer `ALL_ONES ^ (ALL_ONES >> prefixlen)`. -/
def netmaskInt (w p : Nat) : Nat := (2 ^ w - 1) ^^^ ((2 ^ w - 1) >>> p)

/-- `IPv4Interface(s)`: split on `'/'` (at most one permitted), parse the
address part, parse the prefix part (default: full width). Returns
`(address, prefixlen)`. -/
def parseIPv4InterfaceChars (l : List Char) : Option (Nat × Nat) :=
  match splitOnChar '/' l with
  | [a] => (parseIPv4AddressChars a).map (fun v => (v, 32))
  | [a, pr] =>
    match parseIPv4AddressChars a with
    | none => none
    | some v => (parsePrefixLen 32 parseIPv4AddressChars pr).map (fun p => (v, p))
  | _ => none

/-- `IPv4Network(s)` with the default `strict=True`: an interface whose
address has no host bits set (`addr & netmask == addr`). -/
def parseIPv4NetworkChars (l : List Char) : Option (Nat × Nat) :=
  match parseIPv4InterfaceChars l with
  | none => none
  | some (v, p) => if v &&& netmaskInt 32 p = v then some (v, p) else none

def parseIPv6InterfaceChars (l : List Char) : Option (Nat × Nat) :=
  match splitOnChar '/' l with
  | [a] => (parseIPv6AddressChars a).map (fun v => (v, 128))
  | [a, pr] =>
    match parseIPv6AddressChars a with
    | none => none
    | some v => (parsePrefixLen 128 parseIPv6AddressChars pr).map (fun p => (v, p))
  | _ => none

def parseIPv6NetworkChars (l : List Char) : Option (Nat × Nat) :=
  match parseIPv6InterfaceChars l with
  | none => none
  | some (v, p) => if v &&& netmaskInt 128 p = v then some (v, p) else none

/-! ## Canonical string output (`str(...)`) -/

/-- Big-endian base-`b` digits, `k` of them. -/
def digitsBE (b : Nat) : Nat → Nat → List Nat
  | 0, _ => []
  | k+1, x => digitsBE b k (x / b) ++ [x % b]

/-- Python `sep.join(parts)` for a one-character separator. -/
def joinSep (sep : Char) : List (List Char) → List Char
  | [] => []
  | [p] => p
  | p :: q :: ps => p ++ sep :: joinSep sep (q :: ps)

/-- `str(IPv4Address(x))`: `'.'.join(map(str, the 4 bytes))`. -/
def printIPv4Chars (x : Nat) : List Char :=
  joinSep '.' ((digitsBE 256 4 x).map toDecChars)

/-- State of the best/current zero-run scan in `_compress_hextets`
(`-1` start sentinels as in the Python source). -/
structure CompState where
  bestStart : Int
  bestLen : Nat
  curStart : Int
  curLen : Nat
deriving DecidableEq

def compressStep (st : CompState) (ih : Nat × List Char) : CompState :=
  if ih.2 = ['0'] then
    let curLen := st.curLen + 1
    let curStart := if st.curStart = -1 then (ih.1 : Int) else st.curStart
    if st.bestLen < curLen then
      { bestStart := curStart, bestLen := curLen, curStart := curStart, curLen := curLen }
    else { st with curStart := curStart, curLen := curLen }
  else { st with curStart := -1, curLen := 0 }

/-- The end-padding step of `_compress_hextets`: a run reaching the last
hextet must render as a trailing `'::'`. -/
def compressPad (hx : List (List Char)) (e : Nat) : List (List Char) :=
  if e = hx.length then hx ++ [[]] else hx

/-- Replace `hx[s:e]` by one empty part (after padding), then pad the
front when the run starts at 0. -/
def compressCore (hx : List (List Char)) (s e : Nat) : List (List Char) :=
  if s = 0 then
    [] :: ((compressPad hx e).take s ++ [[]] ++ (compressPad hx e).drop e)
  else (compressPad hx e).take s ++ [[]] ++ (compressPad hx e).drop e

/-- `ipaddress._BaseV6._compress_hextets`: splice the best run of `'0'`
hextets (length at least 2) out, padding the ends so that the join yields
`'::'` at a boundary. -/
def compressHextets (hx : List (List Char)) : List (List Char) :=
  if 1 < (hx.enum.foldl compressStep ⟨-1, 0, -1, 0⟩).bestLen then
    compressCore hx (hx.enum.foldl compressStep ⟨-1, 0, -1, 0⟩).bestStart.toNat
      ((hx.enum.foldl compressStep ⟨-1, 0, -1, 0⟩).bestStart.toNat +
        (hx.enum.foldl compressStep ⟨-1, 0, -1, 0⟩).bestLen)
  else hx

/-- `str(IPv6Address(x))`: hextets in minimal hex, longest zero run
compressed, joined with `':'`. -/
def printIPv6Chars (x : Nat) : List Char :=
  joinSep ':' (compressHextets ((digitsBE 65536 8 x).map toHexChars))

/-! ## Typed address objects and the raising (`Except`) layer

The repository's functions receive element text that may be `None`
(`Option String`); every constructor of the `ipaddress` module raises on a
non-string or unparsable input, which the repository catches with bare
`except:` clauses, so a single error value models all exceptions. -/

inductive PyErr | err
deriving DecidableEq

inductive IPVersion | v4 | v6
deriving DecidableEq

def widthV : IPVersion → Nat
  | .v4 => 32
  | .v6 => 128

structure IPAddr where
  version : IPVersion
  value : Nat
deriving DecidableEq

structure IPIntf where
  version : IPVersion
  addr : Nat
  prefixLen : Nat
deriving DecidableEq

structure IPNet where
  version : IPVersion
  networkAddress : Nat
  prefixLen : Nat
deriving DecidableEq

def addrToString : IPAddr → String
  | ⟨.v4, v⟩ => ⟨printIPv4Chars v⟩
  | ⟨.v6, v⟩ => ⟨printIPv6Chars v⟩

def IPv4AddressE : Option String → Except PyErr Nat
  | none => .error .err
  | some s =>
    match parseIPv4AddressChars s.data with
    | some v => .ok v
    | none => .error .err

def IPv6AddressE : Option String → Except PyErr Nat
  | none => .error .err
  | some s =>
    match parseIPv6AddressChars s.data with
    | some v => .ok v
    | none => .error .err

def IPv4InterfaceE : Option String → Except PyErr (Nat × Nat)
  | none => .error .err
  | some s =>
    match parseIPv4InterfaceChars s.data with
    | some v => .ok v
    | none => .error .err

def IPv6InterfaceE : Option String → Except PyErr (Nat × Nat)
  | none => .error .err
  | some s =>
    match parseIPv6InterfaceChars s.data with
    | some v => .ok v
    | none => .error .err

def IPv4NetworkE : Option String → Except PyErr (Nat × Nat)
  | none => .error .err
  | some s =>
    match parseIPv4NetworkChars s.data with
    | some v => .ok v
    | none => .error .err

def IPv6NetworkE : Option String → Except PyErr (Nat × Nat)
  | none => .error .err
  | some s =>
    match parseIPv6NetworkChars s.data with
    | some v => .ok v
    | none => .error .err

/-- `ipaddress.ip_address`: try IPv4, then IPv6. -/
def ip_addressE (v : Option String) : Except PyErr IPAddr :=
  match IPv4AddressE v with
  | .ok a => .ok ⟨.v4, a⟩
  | .error _ =>
    match IPv6AddressE v with
    | .ok a => .ok ⟨.v6, a⟩
    | .error _ => .error .err

/-- `ipaddress.ip_interface`: try IPv4, then IPv6. -/
def ip_interfaceE (v : Option String) : Except PyErr IPIntf :=
  match IPv4InterfaceE v with
  | .ok (a, p) => .ok ⟨.v4, a, p⟩
  | .error _ =>
    match IPv6InterfaceE v with
    | .ok (a, p) => .ok ⟨.v6, a, p⟩
    | .error _ => .error .err

/-- `ipaddress.ip_network` (strict): try IPv4, then IPv6. -/
def ip_networkE (v : Option String) : Except PyErr IPNet :=
  match IPv4NetworkE v with
  | .ok (a, p) => .ok ⟨.v4, a, p⟩
  | .error _ =>
    match IPv6NetworkE v with
    | .ok (a, p) => .ok ⟨.v6, a, p⟩
    | .error _ => .error .err

/-- `int(net.broadcast_address)`: `network | hostmask`. -/
def broadcastInt (n : IPNet) : Nat :=
  n.networkAddress ||| ((2 ^ widthV n.version - 1) >>> n.prefixLen)

/-- `address in network` (`_BaseNetwork.__contains__`): `False` across
families, else the range test
`int(network_address) <= int(addr) <= int(broadcast_address)`. -/
def netContains (n : IPNet) (a : IPAddr) : Bool :=
  if n.version ≠ a.version then false
  else decide (n.networkAddress ≤ a.value ∧ a.value ≤ broadcastInt n)

/-! ## The repository's functions (`lxml_xpath_ipaddress/__init__.py`)

Each `for test in [...]: try: return ...; except: pass` loop is unrolled
into nested matches on the raising parse attempts, in source order. -/

/-- `is_any_ip4`: IPv4Network, IPv4Interface, IPv4Address in order;
`bool(obj)` of any successfully constructed object is `True`. -/
def is_any_ip4 (value : Option String) : Except PyErr Bool :=
  match IPv4NetworkE value with
  | .ok _ => .ok true
  | .error _ =>
    match IPv4InterfaceE value with
    | .ok _ => .ok true
    | .error _ =>
      match IPv4AddressE value with
      | .ok _ => .ok true
      | .error _ => .ok false

/-- `is_net_ip4`: `IPv4Network(x)._prefixlen != 32`, else
`IPv4Interface(x)._prefixlen != 32`, else `False`. -/
def is_net_ip4 (value : Option String) : Except PyErr Bool :=
  match IPv4NetworkE value with
  | .ok n => .ok (decide (n.2 ≠ 32))
  | .error _ =>
    match IPv4InterfaceE value with
    | .ok i => .ok (decide (i.2 ≠ 32))
    | .error _ => .ok false

/-- `is_host_ip4`: `bool(IPv4Address(value))`, else `False`. -/
def is_host_ip4 (value : Option String) : Except PyErr Bool :=
  match IPv4AddressE value with
  | .ok _ => .ok true
  | .error _ => .ok false

/-- `is_any_ip6`: IPv6Network, IPv6Interface, IPv6Address in order. -/
def is_any_ip6 (value : Option String) : Except PyErr Bool :=
  match IPv6NetworkE value with
  | .ok _ => .ok true
  | .error _ =>
    match IPv6InterfaceE value with
    | .ok _ => .ok true
    | .error _ =>
      match IPv6AddressE value with
      | .ok _ => .ok true
      | .error _ => .ok false

/-- `is_host_ip6`: `bool(IPv6Address(value))`, else fall off the end of the
function — the source has no final `return False`, so the Python function
returns `None` (modelled `.ok none`) when the parse fails. -/
def is_host_ip6 (value : Option String) : Except PyErr (Option Bool) :=
  match IPv6AddressE value with
  | .ok _ => .ok (some true)
  | .error _ => .ok none

/-- `is_net_ip6`: `IPv6Network(x)._prefixlen != 128`, else
`IPv6Interface(x)._prefixlen != 128`, else `False`. -/
def is_net_ip6 (value : Option String) : Except PyErr Bool :=
  match IPv6NetworkE value with
  | .ok n => .ok (decide (n.2 ≠ 128))
  | .error _ =>
    match IPv6InterfaceE value with
    | .ok i => .ok (decide (i.2 ≠ 128))
    | .error _ => .ok false

/-- `is_any_ip`: `is_any_ip4(value) or is_any_ip6(value)` (Python `or`:
return the first operand if truthy, else the second operand's value). -/
def is_any_ip (value : Option String) : Except PyErr Bool :=
  match is_any_ip4 value with
  | .error e => .error e
  | .ok b => if b then .ok true else is_any_ip6 value

/-- `is_host_ip`: `is_host_ip4(value) or is_host_ip6(value)`; when
`is_host_ip4` is `False` the result is whatever `is_host_ip6` returns
(possibly `None`). -/
def is_host_ip (value : Option String) : Except PyErr (Option Bool) :=
  match is_host_ip4 value with
  | .error e => .error e
  | .ok b => if b then .ok (some true) else is_host_ip6 value

/-- `is_net_ip`: `is_net_ip4(value) or is_net_ip6(value)`. -/
def is_net_ip (value : Option String) : Except PyErr Bool :=
  match is_net_ip4 value with
  | .error e => .error e
  | .ok b => if b then .ok true else is_net_ip6 value

/-- `ip_only`: `str(ip_address(x))`, else `str(ip_interface(x).ip)`, else
`str(ip_network(x).network_address)`, else `None`. -/
def ip_only (value : Option String) : Except PyErr (Option String) :=
  match ip_addressE value with
  | .ok a => .ok (some (addrToString a))
  | .error _ =>
    match ip_interfaceE value with
    | .ok i => .ok (some (addrToString ⟨i.version, i.addr⟩))
    | .error _ =>
      match ip_networkE value with
      | .ok n => .ok (some (addrToString ⟨n.version, n.networkAddress⟩))
      | .error _ => .ok none

/-- The address object `ip_only` extracts, before `str(...)` is applied to
it; `ip_only` is exactly `addrToString` mapped over this. -/
def ip_only_addr (value : Option String) : Except PyErr (Option IPAddr) :=
  match ip_addressE value with
  | .ok a => .ok (some a)
  | .error _ =>
    match ip_interfaceE value with
    | .ok i => .ok (some ⟨i.version, i.addr⟩)
    | .error _ =>
      match ip_networkE value with
      | .ok n => .ok (some ⟨n.version, n.networkAddress⟩)
      | .error _ => .ok none

/-- `_to_subnet` is `ipaddress.ip_network` behind an `lru_cache`; the cache
is pure memoization (see the stateful model `to_subnet_cached` below), so
the cacheless function is `ip_network` itself. -/
def to_subnet (subnet : Option String) : Except PyErr IPNet := ip_networkE subnet

/-- `in_subnet`:
`try: return ip_address(ip_only(value)) in _to_subnet(subnet); except: return False`
(`ip_address(None)` raises, an unparsable subnet raises; both yield `False`). -/
def in_subnet (value subnet : Option String) : Except PyErr Bool :=
  match ip_only value with
  | .error _ => .ok false
  | .ok x =>
    match ip_addressE x with
    | .error _ => .ok false
    | .ok a =>
      match to_subnet subnet with
      | .error _ => .ok false
      | .ok n => .ok (netContains n a)

/-! ## Stateful model of the `lru_cache` on `_to_subnet`

`functools.lru_cache` (unbounded here) stores only successful returns,
keyed by the argument; exceptions are not cached. -/

abbrev SubnetCache := List (Option String × IPNet)

def cacheLookup (c : SubnetCache) (s : Option String) : Option IPNet :=
  match List.find? (fun p => p.1 = s) c with
  | some p => some p.2
  | none => none

def to_subnet_cached (c : SubnetCache) (s : Option String) :
    Except PyErr IPNet × SubnetCache :=
  match cacheLookup c s with
  | some n => (.ok n, c)
  | none =>
    match ip_networkE s with
    | .ok n => (.ok n, (s, n) :: c)
    | .error e => (.error e, c)

/-- `in_subnet` with the memoization state made explicit; evaluation order
as in the source: `ip_only`, then `ip_address`, then `_to_subnet` (so the
cache is untouched when an earlier step raises). -/
def in_subnet_cached (value subnet : Option String) (c : SubnetCache) :
    Except PyErr Bool × SubnetCache :=
  match ip_only value with
  | .error _ => (.ok false, c)
  | .ok x =>
    match ip_addressE x with
    | .error _ => (.ok false, c)
    | .ok a =>
      match to_subnet_cached c subnet with
      | (.ok n, c1) => (.ok (netContains n a), c1)
      | (.error _, c1) => (.ok false, c1)

/-- Cache consistency: every stored entry is the parse of its key. -/
def CacheOK (c : SubnetCache) : Prop :=
  ∀ p ∈ c, ip_networkE p.1 = .ok p.2

/-! ## The lxml binding layer

An XPath node set is a list of nodes; `ele[0]` raises `IndexError` on an
empty list, and `.text` raises on a node that has no text attribute
(`XNode.noText`); an element's text is `None` or a string. -/

inductive XNode
  | elem (text : Option String)
  | noText

def nodeTextE : XNode → Except PyErr (Option String)
  | .elem t => .ok t
  | .noText => .error .err

/-- `make_nsf(func)`: `try: return func(ele[0].text); except: return False`.
The result type `Option Bool` covers both the predicates' booleans and the
`None` that `is_host_ip`/`is_host_ip6` can return. -/
def make_nsf (func : Option String → Except PyErr (Option Bool)) (ele : List XNode) :
    Except PyErr (Option Bool) :=
  match ele with
  | [] => .ok (some false)
  | n :: _ =>
    match nodeTextE n with
    | .error _ => .ok (some false)
    | .ok t =>
      match func t with
      | .ok v => .ok v
      | .error _ => .ok (some false)

/-- Adapter for registering a `Bool`-valued predicate through `make_nsf`. -/
def liftPB (f : Option String → Except PyErr Bool) (v : Option String) :
    Except PyErr (Option Bool) :=
  match f v with
  | .ok b => .ok (some b)
  | .error e => .error e

/-- `nsf_in_subnet(dummy, ele, subnet)`:
`try: return in_subnet(ele[0].text, subnet); except: return False`. -/
def nsf_in_subnet (ele : List XNode) (subnet : Option String) : Except PyErr Bool :=
  match ele with
  | [] => .ok false
  | n :: _ =>
    match nodeTextE n with
    | .error _ => .ok false
    | .ok t =>
      match in_subnet t subnet with
      | .ok b => .ok b
      | .error _ => .ok false


/-- Invariant of the zero-run scan in `_compress_hextets` after the first
`m` hextets have been processed: the current run and the best run both
consist of `'0'` parts and lie within the processed prefix. -/
def ScanInv (hx : List (List Char)) (m : Nat) (st : CompState) : Prop :=
  ((st.curLen = 0 ∧ st.curStart = -1) ∨
    (0 ≤ st.curStart ∧ st.curStart.toNat + st.curLen = m ∧
      ∀ i (h : i < hx.length), st.curStart.toNat ≤ i → i < m →
        hx[i] = ['0'])) ∧
  ((st.bestLen = 0 ∧ st.bestStart = -1) ∨
    (0 ≤ st.bestStart ∧ st.bestStart.toNat + st.bestLen ≤ m ∧
      ∀ i (h : i < hx.length), st.bestStart.toNat ≤ i →
        i < st.bestStart.toNat + st.bestLen → hx[i] = ['0']))

/-! ## Lemmas: splitting and joining -/

theorem joinSep_cons₂ (sep : Char) (p q : List Char) (ps : List (List Char)) :
    joinSep sep (p :: q :: ps) = p ++ sep :: joinSep sep (q :: ps) := rfl

theorem splitOnChar_ne_nil (sep : Char) (l : List Char) : splitOnChar sep l ≠ [] := by
  induction l with
  | nil => simp [splitOnChar]
  | cons c cs ih =>
    simp only [splitOnChar]
    cases h : splitOnChar sep cs with
    | nil => exact absurd h ih
    | cons p ps => by_cases hc : c = sep <;> simp [hc]

theorem joinSep_splitOnChar (sep : Char) (l : List Char) :
    joinSep sep (splitOnChar sep l) = l := by
  induction l with
  | nil => simp [splitOnChar, joinSep]
  | cons c cs ih =>
    simp only [splitOnChar]
    cases h : splitOnChar sep cs with
    | nil => exact absurd h (splitOnChar_ne_nil sep cs)
    | cons p ps =>
      rw [h] at ih
      by_cases hc : c = sep
      · subst hc
        simp [joinSep_cons₂, ih]
      · simp only [if_neg hc]
        cases ps with
        | nil => simp only [joinSep] at ih ⊢; rw [ih]
        | cons q qs =>
          rw [joinSep_cons₂] at ih ⊢
          rw [List.cons_append, ih]

theorem sep_not_mem_splitOnChar (sep : Char) (l : List Char) :
    ∀ p ∈ splitOnChar sep l, sep ∉ p := by
  induction l with
  | nil => simp [splitOnChar]
  | cons c cs ih =>
    simp only [splitOnChar]
    cases h : splitOnChar sep cs with
    | nil => exact absurd h (splitOnChar_ne_nil sep cs)
    | cons p ps =>
      rw [h] at ih
      by_cases hc : c = sep
      · subst hc
        simp only [if_pos rfl]
        intro r hr
        rcases List.mem_cons.1 hr with h1 | h1
        · subst h1; simp
        · exact ih r h1
      · simp only [if_neg hc]
        intro r hr
        rcases List.mem_cons.1 hr with h1 | h1
        · subst h1
          intro hmem
          rcases List.mem_cons.1 hmem with h2 | h2
          · exact hc h2.symm
          · exact ih p (List.mem_cons_self p ps) h2
        · exact ih r (List.mem_cons_of_mem p h1)

theorem splitOnChar_of_not_mem {sep : Char} {l : List Char} (h : sep ∉ l) :
    splitOnChar sep l = [l] := by
  induction l with
  | nil => simp [splitOnChar]
  | cons c cs ih =>
    simp only [splitOnChar]
    have hc : c ≠ sep := fun he => h (he ▸ List.mem_cons_self c cs)
    have hcs : sep ∉ cs := fun hm => h (List.mem_cons_of_mem c hm)
    rw [ih hcs]
    simp [hc]

theorem mem_joinSep_of_mem {sep : Char} {parts : List (List Char)} {p : List Char}
    {c : Char} (hp : p ∈ parts) (hc : c ∈ p) : c ∈ joinSep sep parts := by
  induction parts with
  | nil => cases hp
  | cons q qs ih =>
    cases qs with
    | nil =>
      rcases List.mem_cons.1 hp with h1 | h1
      · subst h1; simpa [joinSep] using hc
      · cases h1
    | cons r rs =>
      rw [joinSep_cons₂]
      rcases List.mem_cons.1 hp with h1 | h1
      · subst h1; exact List.mem_append_left _ hc
      · exact List.mem_append_right _ (List.mem_cons_of_mem _ (ih h1))

theorem mem_of_mem_splitOnChar {sep : Char} {l p : List Char} {c : Char}
    (hp : p ∈ splitOnChar sep l) (hc : c ∈ p) : c ∈ l := by
  rw [← joinSep_splitOnChar sep l]
  exact mem_joinSep_of_mem hp hc

theorem exists_part_of_mem {sep c : Char} {l : List Char} (hc : c ∈ l) (hne : c ≠ sep) :
    ∃ p ∈ splitOnChar sep l, c ∈ p := by
  induction l with
  | nil => cases hc
  | cons d cs ih =>
    simp only [splitOnChar]
    cases h : splitOnChar sep cs with
    | nil => exact absurd h (splitOnChar_ne_nil sep cs)
    | cons p ps =>
      rw [h] at ih
      by_cases hd : d = sep
      · subst hd
        simp only [if_pos rfl]
        have hccs : c ∈ cs := by
          rcases List.mem_cons.1 hc with h1 | h1
          · exact absurd h1 hne
          · exact h1
        obtain ⟨r, hr, hcr⟩ := ih hccs
        exact ⟨r, List.mem_cons_of_mem _ hr, hcr⟩
      · simp only [if_neg hd]
        rcases List.mem_cons.1 hc with h1 | h1
        · exact ⟨d :: p, List.mem_cons_self _ _, h1 ▸ List.mem_cons_self c _⟩
        · obtain ⟨r, hr, hcr⟩ := ih h1
          rcases List.mem_cons.1 hr with h2 | h2
          · subst h2; exact ⟨d :: r, List.mem_cons_self _ _, List.mem_cons_of_mem _ hcr⟩
          · exact ⟨r, List.mem_cons_of_mem _ h2, hcr⟩

theorem splitOnChar_append_cons {sep : Char} {p : List Char} (hsep : sep ∉ p)
    (rest : List Char) :
    splitOnChar sep (p ++ sep :: rest) = p :: splitOnChar sep rest := by
  induction p with
  | nil =>
    simp only [List.nil_append, splitOnChar]
    cases h : splitOnChar sep rest with
    | nil => exact absurd h (splitOnChar_ne_nil sep rest)
    | cons q qs => simp
  | cons c p ih =>
    have hc : c ≠ sep := fun he => hsep (he ▸ List.mem_cons_self c p)
    have hp : sep ∉ p := fun hm => hsep (List.mem_cons_of_mem c hm)
    simp only [List.cons_append, splitOnChar, List.append_eq]
    rw [ih hp]
    simp [hc]

theorem splitOnChar_joinSep {sep : Char} {parts : List (List Char)}
    (hne : parts ≠ []) (hsep : ∀ p ∈ parts, sep ∉ p) :
    splitOnChar sep (joinSep sep parts) = parts := by
  induction parts with
  | nil => exact absurd rfl hne
  | cons p qs ih =>
    cases qs with
    | nil =>
      simp only [joinSep]
      exact splitOnChar_of_not_mem (hsep p (List.mem_cons_self p []))
    | cons q rs =>
      rw [joinSep_cons₂]
      rw [splitOnChar_append_cons (hsep p (List.mem_cons_self _ _))]
      rw [ih (List.cons_ne_nil q rs) (fun r hr => hsep r (List.mem_cons_of_mem p hr))]

theorem sep_mem_joinSep {sep : Char} (p q : List Char) (ps : List (List Char)) :
    sep ∈ joinSep sep (p :: q :: ps) := by
  rw [joinSep_cons₂]
  exact List.mem_append_right _ (List.mem_cons_self sep _)

/-! ## Lemmas: characters, digit values, positional folds, `mapM` -/

theorem char_le_iff {a b : Char} : a ≤ b ↔ a.toNat ≤ b.toNat := Iff.rfl

theorem isDecDigit_iff {c : Char} :
    isDecDigit c = true ↔ 48 ≤ c.toNat ∧ c.toNat ≤ 57 := by
  unfold isDecDigit
  rw [Bool.and_eq_true, decide_eq_true_eq, decide_eq_true_eq]
  exact and_congr char_le_iff char_le_iff

theorem isHexDigitB_iff {c : Char} :
    isHexDigitB c = true ↔
      (48 ≤ c.toNat ∧ c.toNat ≤ 57) ∨ (97 ≤ c.toNat ∧ c.toNat ≤ 102) ∨
        (65 ≤ c.toNat ∧ c.toNat ≤ 70) := by
  unfold isHexDigitB
  simp only [Bool.or_eq_true, Bool.and_eq_true, decide_eq_true_eq, isDecDigit_iff,
    char_le_iff, or_assoc]
  exact Iff.rfl

theorem decDigitVal_lt {c : Char} (h : isDecDigit c = true) : decDigitVal c < 10 := by
  have h0 : ('0' : Char).toNat = 48 := rfl
  have hb := isDecDigit_iff.mp h
  unfold decDigitVal
  omega

theorem hexDigitVal_lt {c : Char} (h : isHexDigitB c = true) : hexDigitVal c < 16 := by
  have h0 : ('0' : Char).toNat = 48 := rfl
  have ha : ('a' : Char).toNat = 97 := rfl
  have haf : ('f' : Char).toNat = 102 := rfl
  have hA : ('A' : Char).toNat = 65 := rfl
  have hAF : ('F' : Char).toNat = 70 := rfl
  have hx := isHexDigitB_iff.mp h
  unfold hexDigitVal decDigitVal
  split
  next hd =>
    have hb := isDecDigit_iff.mp hd
    omega
  next hd =>
    have hd2 : ¬(48 ≤ c.toNat ∧ c.toNat ≤ 57) := fun hcon => hd (isDecDigit_iff.mpr hcon)
    split
    next hf =>
      simp only [Bool.and_eq_true, decide_eq_true_eq, char_le_iff] at hf
      omega
    next hf =>
      have hf2 : ¬(97 ≤ c.toNat ∧ c.toNat ≤ 102) := by
        intro hcon
        apply hf
        simp only [Bool.and_eq_true, decide_eq_true_eq, char_le_iff]
        omega
      rcases hx with h1 | h1 | h1
      · exact absurd h1 hd2
      · exact absurd h1 hf2
      · omega

theorem foldl_digits_lt {α : Type} (B : Nat) (dv : α → Nat) (l : List α)
    (hl : ∀ c ∈ l, dv c < B) :
    ∀ a, l.foldl (fun x c => x * B + dv c) a < (a + 1) * B ^ l.length := by
  induction l with
  | nil => intro a; simpa using Nat.lt_succ_self a
  | cons v vs ih =>
    intro a
    have hv := hl v (List.mem_cons_self _ _)
    have h1 := ih (fun u hu => hl u (List.mem_cons_of_mem _ hu)) (a * B + dv v)
    calc (v :: vs).foldl (fun x c => x * B + dv c) a
        = vs.foldl (fun x c => x * B + dv c) (a * B + dv v) := rfl
      _ < (a * B + dv v + 1) * B ^ vs.length := h1
      _ ≤ ((a + 1) * B) * B ^ vs.length := by
          have h2 : a * B + dv v + 1 ≤ (a + 1) * B := by
            have : a * B + (dv v + 1) ≤ a * B + B := Nat.add_le_add_left hv (a * B)
            calc a * B + dv v + 1 = a * B + (dv v + 1) := by omega
              _ ≤ a * B + B := this
              _ = (a + 1) * B := by ring
          exact Nat.mul_le_mul_right _ h2
      _ = (a + 1) * B ^ (v :: vs).length := by
          simp only [List.length_cons]
          ring

theorem hexValue_lt {l : List Char} (h : l.all isHexDigitB = true) :
    hexValue l < 16 ^ l.length := by
  have h1 := foldl_digits_lt 16 hexDigitVal l
    (fun c hc => hexDigitVal_lt (by exact List.all_eq_true.mp h c hc)) 0
  rw [Nat.zero_add, Nat.one_mul] at h1
  exact h1

theorem mapM_option_mem {α β : Type} {f : α → Option β} :
    ∀ {l : List α} {r : List β}, l.mapM f = some r → ∀ b ∈ r, ∃ a ∈ l, f a = some b := by
  intro l
  induction l with
  | nil =>
    intro r h b hb
    simp only [List.mapM_nil, pure, Option.some.injEq] at h
    subst h; cases hb
  | cons a l ih =>
    intro r h b hb
    rw [List.mapM_cons] at h
    cases hfa : f a with
    | none => rw [hfa] at h; simp at h
    | some x =>
      rw [hfa] at h
      cases hml : l.mapM f with
      | none => rw [hml] at h; simp at h
      | some xs =>
        rw [hml] at h
        simp at h
        subst h
        rcases List.mem_cons.1 hb with h1 | h1
        · exact ⟨a, List.mem_cons_self _ _, h1 ▸ hfa⟩
        · obtain ⟨u, hu, hfu⟩ := ih hml b h1
          exact ⟨u, List.mem_cons_of_mem _ hu, hfu⟩

theorem mapM_option_isSome {α β : Type} {f : α → Option β} :
    ∀ {l : List α} {r : List β}, l.mapM f = some r → ∀ a ∈ l, ∃ b, f a = some b := by
  intro l
  induction l with
  | nil => intro r _ a ha; cases ha
  | cons a l ih =>
    intro r h u hu
    rw [List.mapM_cons] at h
    cases hfa : f a with
    | none => rw [hfa] at h; simp at h
    | some x =>
      rw [hfa] at h
      cases hml : l.mapM f with
      | none => rw [hml] at h; simp at h
      | some xs =>
        rcases List.mem_cons.1 hu with h1 | h1
        · exact ⟨x, h1 ▸ hfa⟩
        · exact ih hml u h1

theorem mapM_option_roundtrip {α β : Type} {f : α → Option β} {g : β → α} :
    ∀ {l : List β}, (∀ b ∈ l, f (g b) = some b) → (l.map g).mapM f = some l := by
  intro l
  induction l with
  | nil => intro _; rfl
  | cons b l ih =>
    intro h
    rw [List.map_cons, List.mapM_cons, h b (List.mem_cons_self _ _),
      ih (fun u hu => h u (List.mem_cons_of_mem _ hu))]
    rfl

theorem mapM_option_length {α β : Type} {f : α → Option β} :
    ∀ {l : List α} {r : List β}, l.mapM f = some r → r.length = l.length := by
  intro l
  induction l with
  | nil =>
    intro r h
    simp only [List.mapM_nil, pure, Option.some.injEq] at h
    subst h; rfl
  | cons a l ih =>
    intro r h
    rw [List.mapM_cons] at h
    cases hfa : f a with
    | none => rw [hfa] at h; simp at h
    | some x =>
      rw [hfa] at h
      cases hml : l.mapM f with
      | none => rw [hml] at h; simp at h
      | some xs =>
        rw [hml] at h
        simp at h
        subst h
        simp [ih hml]

/-! ## Lemmas: bit arithmetic for netmasks, strictness, broadcast -/

theorem two_pow_sub_one_shiftRight (w p : Nat) (h : p ≤ w) :
    (2 ^ w - 1) >>> p = 2 ^ (w - p) - 1 := by
  rw [Nat.shiftRight_eq_div_pow]
  have hsplit : 2 ^ w = 2 ^ p * 2 ^ (w - p) := by
    rw [← pow_add]; congr 1; omega
  have hB : 1 ≤ 2 ^ (w - p) := Nat.one_le_two_pow
  have hA : 1 ≤ 2 ^ p := Nat.one_le_two_pow
  obtain ⟨b, hb⟩ : ∃ b, 2 ^ (w - p) = b + 1 := ⟨2 ^ (w - p) - 1, by omega⟩
  have h1 : 2 ^ w - 1 = 2 ^ p * b + (2 ^ p - 1) := by
    rw [hsplit, hb]
    have : 2 ^ p * (b + 1) = 2 ^ p * b + 2 ^ p := by ring
    omega
  rw [h1, hb]
  rw [Nat.mul_add_div (by positivity), Nat.div_eq_of_lt (by omega)]
  omega

theorem netmaskInt_eq_shift (w p : Nat) (h : p ≤ w) :
    netmaskInt w p = (2 ^ p - 1) <<< (w - p) := by
  unfold netmaskInt
  rw [two_pow_sub_one_shiftRight w p h]
  apply Nat.eq_of_testBit_eq
  intro i
  simp only [Nat.testBit_xor, Nat.testBit_two_pow_sub_one, Nat.testBit_shiftLeft, ge_iff_le]
  by_cases h1 : i < w - p
  · have h2 : i < w := by omega
    have h3 : ¬ (w - p ≤ i) := by omega
    simp [h1, h2, h3]
  · by_cases h2 : i < w
    · have h3 : w - p ≤ i := by omega
      have h4 : i - (w - p) < p := by omega
      simp [h1, h2, h3, h4]
    · have h4 : ¬ (i - (w - p) < p) := by omega
      simp [h1, h2, h4]

theorem land_shifted_mask (x p k : Nat) :
    x &&& ((2 ^ p - 1) <<< k) = ((x >>> k) &&& (2 ^ p - 1)) <<< k := by
  apply Nat.eq_of_testBit_eq
  intro i
  simp only [Nat.testBit_and, Nat.testBit_shiftLeft, Nat.testBit_shiftRight,
    Nat.testBit_two_pow_sub_one, ge_iff_le]
  by_cases h1 : k ≤ i
  · have h2 : k + (i - k) = i := by omega
    rw [h2]
    by_cases h3 : i - k < p <;>
      simp [h1, h3, Bool.and_comm, Bool.and_assoc, Bool.and_left_comm]
  · simp [h1]

theorem land_mask_eq {x w p : Nat} (hp : p ≤ w) (hx : x < 2 ^ w) :
    x &&& netmaskInt w p = 2 ^ (w - p) * (x / 2 ^ (w - p)) := by
  rw [netmaskInt_eq_shift w p hp, land_shifted_mask,
    Nat.and_pow_two_sub_one_eq_mod, Nat.shiftRight_eq_div_pow, Nat.shiftLeft_eq]
  have hlt : x / 2 ^ (w - p) < 2 ^ p := by
    apply Nat.div_lt_of_lt_mul
    rw [← pow_add]
    have : w - p + p = w := by omega
    rw [this]
    exact hx
  rw [Nat.mod_eq_of_lt hlt, Nat.mul_comm]

theorem land_mask_eq_self_iff {x w p : Nat} (hp : p ≤ w) (hx : x < 2 ^ w) :
    (x &&& netmaskInt w p = x) ↔ x % 2 ^ (w - p) = 0 := by
  rw [land_mask_eq hp hx]
  have hdm := Nat.div_add_mod x (2 ^ (w - p))
  omega

theorem broadcast_eq_add {w p netaddr : Nat} (hp : p ≤ w)
    (hal : netaddr % 2 ^ (w - p) = 0) :
    netaddr ||| ((2 ^ w - 1) >>> p) = netaddr + (2 ^ (w - p) - 1) := by
  rw [two_pow_sub_one_shiftRight w p hp]
  obtain ⟨q, hq⟩ : ∃ q, netaddr = 2 ^ (w - p) * q := by
    refine ⟨netaddr / 2 ^ (w - p), ?_⟩
    have := Nat.div_add_mod netaddr (2 ^ (w - p))
    omega
  subst hq
  have hb : 2 ^ (w - p) - 1 < 2 ^ (w - p) := by
    have : 1 ≤ 2 ^ (w - p) := Nat.one_le_two_pow
    omega
  exact (Nat.mul_add_lt_is_or hb q).symm

theorem shiftLeft16_or_eq (a h : Nat) (hh : h < 2 ^ 16) :
    (a <<< 16) ||| h = a * 2 ^ 16 + h := by
  rw [Nat.shiftLeft_eq]
  calc (a * 2 ^ 16) ||| h = (2 ^ 16 * a) ||| h := by rw [Nat.mul_comm]
    _ = 2 ^ 16 * a + h := (Nat.mul_add_lt_is_or hh a).symm
    _ = a * 2 ^ 16 + h := by ring

/-! ## Lemmas: parser facts and value bounds -/

theorem parseOctet_props {l : List Char} {n : Nat} (h : parseOctet l = some n) :
    l.isEmpty = false ∧ l.all isDecDigit = true ∧ l.length ≤ 3 ∧ decValue l = n ∧
      n ≤ 255 := by
  unfold parseOctet at h
  split_ifs at h with h1 h2 h3 h4 h5 <;> try exact Option.noConfusion h
  injection h with h
  refine ⟨by simpa using h1, by simpa using h2, by omega, h, by omega⟩

theorem parseHextet_props {l : List Char} {n : Nat} (h : parseHextet l = some n) :
    l ≠ [] ∧ l.all isHexDigitB = true ∧ l.length ≤ 4 ∧ hexValue l = n := by
  unfold parseHextet at h
  split_ifs at h with h1 h2 h3 <;> try exact Option.noConfusion h
  injection h with h
  refine ⟨by simpa using h3, by simpa using h1, by omega, h⟩

theorem parseHextet_lt {l : List Char} {n : Nat} (h : parseHextet l = some n) :
    n < 65536 := by
  obtain ⟨-, hall, hlen, hval⟩ := parseHextet_props h
  have h1 := hexValue_lt hall
  have h2 : (16 : Nat) ^ l.length ≤ 16 ^ 4 := Nat.pow_le_pow_right (by omega) hlen
  omega

theorem parseIPv4_props {l : List Char} {x : Nat} (h : parseIPv4AddressChars l = some x) :
    l.isEmpty = false ∧ (splitOnChar '.' l).length = 4 ∧
      ∃ vals, (splitOnChar '.' l).mapM parseOctet = some vals ∧
        x = vals.foldl (fun a v => a * 256 + v) 0 := by
  unfold parseIPv4AddressChars at h
  split_ifs at h with h1 h2 <;> try exact Option.noConfusion h
  cases hm : (splitOnChar '.' l).mapM parseOctet with
  | none => rw [hm] at h; exact Option.noConfusion h
  | some vals =>
    rw [hm] at h
    injection h with h
    exact ⟨by simpa using h1, by omega, vals, rfl, h.symm⟩

theorem parseIPv4_lt {l : List Char} {x : Nat} (h : parseIPv4AddressChars l = some x) :
    x < 2 ^ 32 := by
  obtain ⟨-, hlen4, vals, hm, hx⟩ := parseIPv4_props h
  have hlen : vals.length = 4 := by rw [mapM_option_length hm, hlen4]
  have hv : ∀ v ∈ vals, (fun u => u) v < 256 := by
    intro v hvm
    obtain ⟨a, -, hfa⟩ := mapM_option_mem hm v hvm
    have := (parseOctet_props hfa).2.2.2.2
    simpa using by omega
  have hb := foldl_digits_lt 256 (fun u => u) vals hv 0
  rw [hlen] at hb
  norm_num at hb
  rw [hx]
  exact hb

theorem v6ResolveFin_props {hi lo hi2 lo2 sk : Nat}
    (h : v6ResolveFin hi lo = some (hi2, lo2, sk)) :
    hi2 = hi ∧ lo2 = lo ∧ hi + lo < 8 ∧ sk = 8 - (hi + lo) := by
  unfold v6ResolveFin at h
  split_ifs at h with h1 <;> try exact Option.noConfusion h
  simp only [Option.some.injEq, Prod.mk.injEq] at h
  omega

theorem v6ResolveLo_props {parts : List (List Char)} {k hi : Nat} {r : Nat × Nat × Nat}
    (h : v6ResolveLo parts k hi = some r) :
    ∃ lo, v6ResolveFin hi lo = some r := by
  unfold v6ResolveLo at h
  split_ifs at h with h1 h2 <;> try exact Option.noConfusion h
  · exact ⟨0, h⟩
  · exact ⟨parts.length - k - 1, h⟩

theorem v6ResolveSkip_props {parts : List (List Char)} {k : Nat} {r : Nat × Nat × Nat}
    (h : v6ResolveSkip parts k = some r) :
    ∃ hi lo, v6ResolveFin hi lo = some r := by
  unfold v6ResolveSkip at h
  split_ifs at h with h1 h2 <;> try exact Option.noConfusion h
  · exact ⟨0, (v6ResolveLo_props h).imp (fun _ hh => hh)⟩
  · exact ⟨k, (v6ResolveLo_props h).imp (fun _ hh => hh)⟩

theorem v6Resolve_sum {parts : List (List Char)} {hi lo sk : Nat}
    (h : v6Resolve parts = some (hi, lo, sk)) : hi + lo + sk = 8 := by
  unfold v6Resolve at h
  split_ifs at h with h1 h2 h3 h4 h5 <;> try exact Option.noConfusion h
  · obtain ⟨hi0, lo0, hfin⟩ := v6ResolveSkip_props h
    obtain ⟨ha, hb, hc, hd⟩ := v6ResolveFin_props hfin
    omega
  · simp only [Option.some.injEq, Prod.mk.injEq] at h
    omega

theorem foldHextets_lt {hs : List Nat} (hh : ∀ h ∈ hs, h < 65536) :
    ∀ {k a : Nat}, a < 2 ^ (16 * k) → foldHextets a hs < 2 ^ (16 * (k + hs.length)) := by
  induction hs with
  | nil =>
    intro k a ha
    simpa [foldHextets] using ha
  | cons h hs ih =>
    intro k a ha
    have hstep : (a <<< 16) ||| h < 2 ^ (16 * (k + 1)) := by
      apply Nat.or_lt_two_pow
      · rw [Nat.shiftLeft_eq]
        calc a * 2 ^ 16 < 2 ^ (16 * k) * 2 ^ 16 := by
              have hpos : (0 : Nat) < 2 ^ 16 := by positivity
              exact (Nat.mul_lt_mul_right hpos).mpr ha
          _ = 2 ^ (16 * (k + 1)) := by rw [← pow_add]; congr 1
      · calc h < 65536 := hh h (List.mem_cons_self _ _)
          _ = 2 ^ 16 := by norm_num
          _ ≤ 2 ^ (16 * (k + 1)) := Nat.pow_le_pow_right (by omega) (by omega)
    have hrec := ih (fun u hu => hh u (List.mem_cons_of_mem _ hu)) hstep
    have hgoal : foldHextets a (h :: hs) = foldHextets ((a <<< 16) ||| h) hs := rfl
    rw [hgoal]
    have hexp : 16 * (k + 1 + hs.length) = 16 * (k + (h :: hs).length) := by
      simp only [List.length_cons]; ring
    rw [← hexp]
    exact hrec

theorem parseIPv6_lt {l : List Char} {x : Nat} (h : parseIPv6AddressChars l = some x) :
    x < 2 ^ 128 := by
  unfold parseIPv6AddressChars at h
  split_ifs at h with h1 h2 <;> try exact Option.noConfusion h
  split at h
  · exact Option.noConfusion h
  rename_i parts he
  split_ifs at h with h3 <;> try exact Option.noConfusion h
  split at h
  · exact Option.noConfusion h
  rename_i t hi lo sk hr
  have hsum := v6Resolve_sum hr
  unfold v6Assemble at h
  split at h
  · exact Option.noConfusion h
  rename_i hs hm1
  split at h
  · exact Option.noConfusion h
  rename_i ls hm2
  injection h with h
  subst h
  have hhs : ∀ u ∈ hs, u < 65536 := by
    intro u hu
    obtain ⟨a, -, hfa⟩ := mapM_option_mem hm1 u hu
    exact parseHextet_lt hfa
  have hls : ∀ u ∈ ls, u < 65536 := by
    intro u hu
    obtain ⟨a, -, hfa⟩ := mapM_option_mem hm2 u hu
    exact parseHextet_lt hfa
  have hlen1 : hs.length ≤ hi := by
    rw [mapM_option_length hm1, List.length_take]
    exact Nat.min_le_left _ _
  have hlen2 : ls.length ≤ lo := by
    rw [mapM_option_length hm2, List.length_drop]
    omega
  have hb1 : foldHextets 0 hs < 2 ^ (16 * (0 + hs.length)) :=
    @foldHextets_lt _ hhs 0 _ (by norm_num)
  have hb2 : (foldHextets 0 hs) <<< (16 * sk) < 2 ^ (16 * (hs.length + sk)) := by
    rw [Nat.shiftLeft_eq]
    calc foldHextets 0 hs * 2 ^ (16 * sk)
        < 2 ^ (16 * hs.length) * 2 ^ (16 * sk) := by
          have hpos : (0 : Nat) < 2 ^ (16 * sk) := by positivity
          refine (Nat.mul_lt_mul_right hpos).mpr ?_
          simpa using hb1
      _ = 2 ^ (16 * (hs.length + sk)) := by rw [← pow_add]; congr 1; ring
  have hb3 := @foldHextets_lt _ hls (hs.length + sk) _ hb2
  calc foldHextets ((foldHextets 0 hs) <<< (16 * sk)) ls
      < 2 ^ (16 * (hs.length + sk + ls.length)) := hb3
    _ ≤ 2 ^ 128 := Nat.pow_le_pow_right (by omega) (by omega)

/-! ## Lemmas: prefix lengths and interface/network structure -/

theorem prefixFromIpIntAux_le {w tz ip p : Nat} (h : prefixFromIpIntAux w tz ip = some p) :
    p ≤ w := by
  unfold prefixFromIpIntAux at h
  split_ifs at h <;> try exact Option.noConfusion h
  injection h with h
  omega

theorem prefixFromIpChars_le {w : Nat} {ap : List Char → Option Nat} {l : List Char}
    {p : Nat} (h : prefixFromIpChars w ap l = some p) : p ≤ w := by
  unfold prefixFromIpChars prefixFromIpInt at h
  split at h
  · exact Option.noConfusion h
  rename_i ip ha
  split at h
  · rename_i q hp
    injection h with h
    exact h ▸ prefixFromIpIntAux_le hp
  · exact prefixFromIpIntAux_le h

theorem parsePrefixLen_le {w : Nat} {ap : List Char → Option Nat} {l : List Char}
    {p : Nat} (h : parsePrefixLen w ap l = some p) : p ≤ w := by
  unfold parsePrefixLen at h
  split_ifs at h with h1 h2
  · injection h with h; omega
  · exact prefixFromIpChars_le h
  · exact prefixFromIpChars_le h

theorem splitOnChar_singleton {sep : Char} {l a : List Char}
    (h : splitOnChar sep l = [a]) : a = l := by
  have := joinSep_splitOnChar sep l
  rw [h] at this
  simpa [joinSep] using this

theorem parseIPv4InterfaceChars_cases {l : List Char} {v p : Nat}
    (h : parseIPv4InterfaceChars l = some (v, p)) :
    (parseIPv4AddressChars l = some v ∧ p = 32 ∧ splitOnChar '/' l = [l]) ∨
      (∃ a pr, splitOnChar '/' l = [a, pr] ∧ parseIPv4AddressChars a = some v ∧
        parsePrefixLen 32 parseIPv4AddressChars pr = some p) := by
  unfold parseIPv4InterfaceChars at h
  split at h
  · rename_i a hs
    cases hpa : parseIPv4AddressChars a with
    | none => rw [hpa] at h; exact Option.noConfusion h
    | some u =>
      rw [hpa] at h
      simp only [Option.map_some', Option.some.injEq, Prod.mk.injEq] at h
      obtain ⟨rfl, rfl⟩ := h
      have ha := splitOnChar_singleton hs
      subst ha
      exact Or.inl ⟨hpa, rfl, hs⟩
  · rename_i a pr hs
    split at h
    · exact Option.noConfusion h
    rename_i u hpa
    cases hpp : parsePrefixLen 32 parseIPv4AddressChars pr with
    | none => rw [hpp] at h; exact Option.noConfusion h
    | some q =>
      rw [hpp] at h
      simp only [Option.map_some', Option.some.injEq, Prod.mk.injEq] at h
      obtain ⟨h1, rfl⟩ := h
      subst h1
      exact Or.inr ⟨a, pr, hs, hpa, hpp⟩
  · exact Option.noConfusion h

theorem parseIPv6InterfaceChars_cases {l : List Char} {v p : Nat}
    (h : parseIPv6InterfaceChars l = some (v, p)) :
    (parseIPv6AddressChars l = some v ∧ p = 128 ∧ splitOnChar '/' l = [l]) ∨
      (∃ a pr, splitOnChar '/' l = [a, pr] ∧ parseIPv6AddressChars a = some v ∧
        parsePrefixLen 128 parseIPv6AddressChars pr = some p) := by
  unfold parseIPv6InterfaceChars at h
  split at h
  · rename_i a hs
    cases hpa : parseIPv6AddressChars a with
    | none => rw [hpa] at h; exact Option.noConfusion h
    | some u =>
      rw [hpa] at h
      simp only [Option.map_some', Option.some.injEq, Prod.mk.injEq] at h
      obtain ⟨rfl, rfl⟩ := h
      have ha := splitOnChar_singleton hs
      subst ha
      exact Or.inl ⟨hpa, rfl, hs⟩
  · rename_i a pr hs
    split at h
    · exact Option.noConfusion h
    rename_i u hpa
    cases hpp : parsePrefixLen 128 parseIPv6AddressChars pr with
    | none => rw [hpp] at h; exact Option.noConfusion h
    | some q =>
      rw [hpp] at h
      simp only [Option.map_some', Option.some.injEq, Prod.mk.injEq] at h
      obtain ⟨h1, rfl⟩ := h
      subst h1
      exact Or.inr ⟨a, pr, hs, hpa, hpp⟩
  · exact Option.noConfusion h

theorem parseIPv4InterfaceChars_bounds {l : List Char} {v p : Nat}
    (h : parseIPv4InterfaceChars l = some (v, p)) : v < 2 ^ 32 ∧ p ≤ 32 := by
  rcases parseIPv4InterfaceChars_cases h with ⟨ha, hp, -⟩ | ⟨a, pr, -, ha, hp⟩
  · exact ⟨parseIPv4_lt ha, by omega⟩
  · exact ⟨parseIPv4_lt ha, parsePrefixLen_le hp⟩

theorem parseIPv6InterfaceChars_bounds {l : List Char} {v p : Nat}
    (h : parseIPv6InterfaceChars l = some (v, p)) : v < 2 ^ 128 ∧ p ≤ 128 := by
  rcases parseIPv6InterfaceChars_cases h with ⟨ha, hp, -⟩ | ⟨a, pr, -, ha, hp⟩
  · exact ⟨parseIPv6_lt ha, by omega⟩
  · exact ⟨parseIPv6_lt ha, parsePrefixLen_le hp⟩

theorem parseIPv4NetworkChars_inv {l : List Char} {v p : Nat}
    (h : parseIPv4NetworkChars l = some (v, p)) :
    parseIPv4InterfaceChars l = some (v, p) ∧ v &&& netmaskInt 32 p = v := by
  unfold parseIPv4NetworkChars at h
  split at h
  · exact Option.noConfusion h
  rename_i t u q hi
  split_ifs at h with h1 <;> try exact Option.noConfusion h
  simp only [Option.some.injEq, Prod.mk.injEq] at h
  obtain ⟨rfl, rfl⟩ := h
  exact ⟨hi, h1⟩

theorem parseIPv6NetworkChars_inv {l : List Char} {v p : Nat}
    (h : parseIPv6NetworkChars l = some (v, p)) :
    parseIPv6InterfaceChars l = some (v, p) ∧ v &&& netmaskInt 128 p = v := by
  unfold parseIPv6NetworkChars at h
  split at h
  · exact Option.noConfusion h
  rename_i t u q hi
  split_ifs at h with h1 <;> try exact Option.noConfusion h
  simp only [Option.some.injEq, Prod.mk.injEq] at h
  obtain ⟨rfl, rfl⟩ := h
  exact ⟨hi, h1⟩

theorem parseIPv4NetworkChars_align {l : List Char} {v p : Nat}
    (h : parseIPv4NetworkChars l = some (v, p)) : v % 2 ^ (32 - p) = 0 := by
  obtain ⟨hi, hmask⟩ := parseIPv4NetworkChars_inv h
  obtain ⟨hv, hp⟩ := parseIPv4InterfaceChars_bounds hi
  exact (land_mask_eq_self_iff hp hv).mp hmask

theorem parseIPv6NetworkChars_align {l : List Char} {v p : Nat}
    (h : parseIPv6NetworkChars l = some (v, p)) : v % 2 ^ (128 - p) = 0 := by
  obtain ⟨hi, hmask⟩ := parseIPv6NetworkChars_inv h
  obtain ⟨hv, hp⟩ := parseIPv6InterfaceChars_bounds hi
  exact (land_mask_eq_self_iff hp hv).mp hmask

/-! ## Lemmas: the raising wrappers and combined constructors -/

theorem IPv4AddressE_eq_ok {s : String} {n : Nat}
    (hp : parseIPv4AddressChars s.data = some n) : IPv4AddressE (some s) = .ok n := by
  simp [IPv4AddressE, hp]

theorem IPv6AddressE_eq_ok {s : String} {n : Nat}
    (hp : parseIPv6AddressChars s.data = some n) : IPv6AddressE (some s) = .ok n := by
  simp [IPv6AddressE, hp]

theorem IPv4AddressE_eq_err {s : String}
    (hp : parseIPv4AddressChars s.data = none) : IPv4AddressE (some s) = .error .err := by
  simp [IPv4AddressE, hp]

theorem IPv6AddressE_eq_err {s : String}
    (hp : parseIPv6AddressChars s.data = none) : IPv6AddressE (some s) = .error .err := by
  simp [IPv6AddressE, hp]

theorem IPv4AddressE_ok {v : Option String} {n : Nat} (h : IPv4AddressE v = .ok n) :
    ∃ s, v = some s ∧ parseIPv4AddressChars s.data = some n := by
  cases v with
  | none => simp [IPv4AddressE] at h
  | some s =>
    cases hq : parseIPv4AddressChars s.data with
    | some m =>
      have he : IPv4AddressE (some s) = .ok m := by simp [IPv4AddressE, hq]
      rw [he] at h
      injection h with h
      exact ⟨s, rfl, h ▸ hq⟩
    | none =>
      have he : IPv4AddressE (some s) = .error .err := by simp [IPv4AddressE, hq]
      rw [he] at h
      exact Except.noConfusion h

theorem IPv6AddressE_ok {v : Option String} {n : Nat} (h : IPv6AddressE v = .ok n) :
    ∃ s, v = some s ∧ parseIPv6AddressChars s.data = some n := by
  cases v with
  | none => simp [IPv6AddressE] at h
  | some s =>
    cases hq : parseIPv6AddressChars s.data with
    | some m =>
      have he : IPv6AddressE (some s) = .ok m := by simp [IPv6AddressE, hq]
      rw [he] at h
      injection h with h
      exact ⟨s, rfl, h ▸ hq⟩
    | none =>
      have he : IPv6AddressE (some s) = .error .err := by simp [IPv6AddressE, hq]
      rw [he] at h
      exact Except.noConfusion h

theorem IPv4InterfaceE_ok {v : Option String} {t : Nat × Nat}
    (h : IPv4InterfaceE v = .ok t) :
    ∃ s, v = some s ∧ parseIPv4InterfaceChars s.data = some t := by
  cases v with
  | none => simp [IPv4InterfaceE] at h
  | some s =>
    cases hq : parseIPv4InterfaceChars s.data with
    | some m =>
      have he : IPv4InterfaceE (some s) = .ok m := by simp [IPv4InterfaceE, hq]
      rw [he] at h
      injection h with h
      exact ⟨s, rfl, h ▸ hq⟩
    | none =>
      have he : IPv4InterfaceE (some s) = .error .err := by simp [IPv4InterfaceE, hq]
      rw [he] at h
      exact Except.noConfusion h

theorem IPv6InterfaceE_ok {v : Option String} {t : Nat × Nat}
    (h : IPv6InterfaceE v = .ok t) :
    ∃ s, v = some s ∧ parseIPv6InterfaceChars s.data = some t := by
  cases v with
  | none => simp [IPv6InterfaceE] at h
  | some s =>
    cases hq : parseIPv6InterfaceChars s.data with
    | some m =>
      have he : IPv6InterfaceE (some s) = .ok m := by simp [IPv6InterfaceE, hq]
      rw [he] at h
      injection h with h
      exact ⟨s, rfl, h ▸ hq⟩
    | none =>
      have he : IPv6InterfaceE (some s) = .error .err := by simp [IPv6InterfaceE, hq]
      rw [he] at h
      exact Except.noConfusion h

theorem IPv4NetworkE_ok {v : Option String} {t : Nat × Nat}
    (h : IPv4NetworkE v = .ok t) :
    ∃ s, v = some s ∧ parseIPv4NetworkChars s.data = some t := by
  cases v with
  | none => simp [IPv4NetworkE] at h
  | some s =>
    cases hq : parseIPv4NetworkChars s.data with
    | some m =>
      have he : IPv4NetworkE (some s) = .ok m := by simp [IPv4NetworkE, hq]
      rw [he] at h
      injection h with h
      exact ⟨s, rfl, h ▸ hq⟩
    | none =>
      have he : IPv4NetworkE (some s) = .error .err := by simp [IPv4NetworkE, hq]
      rw [he] at h
      exact Except.noConfusion h

theorem IPv6NetworkE_ok {v : Option String} {t : Nat × Nat}
    (h : IPv6NetworkE v = .ok t) :
    ∃ s, v = some s ∧ parseIPv6NetworkChars s.data = some t := by
  cases v with
  | none => simp [IPv6NetworkE] at h
  | some s =>
    cases hq : parseIPv6NetworkChars s.data with
    | some m =>
      have he : IPv6NetworkE (some s) = .ok m := by simp [IPv6NetworkE, hq]
      rw [he] at h
      injection h with h
      exact ⟨s, rfl, h ▸ hq⟩
    | none =>
      have he : IPv6NetworkE (some s) = .error .err := by simp [IPv6NetworkE, hq]
      rw [he] at h
      exact Except.noConfusion h

theorem ip_addressE_cases {v : Option String} {a : IPAddr} (h : ip_addressE v = .ok a) :
    ∃ s, v = some s ∧
      ((a.version = .v4 ∧ parseIPv4AddressChars s.data = some a.value) ∨
        (a.version = .v6 ∧ parseIPv4AddressChars s.data = none ∧
          parseIPv6AddressChars s.data = some a.value)) := by
  unfold ip_addressE at h
  split at h
  · rename_i n h4
    injection h with h
    subst h
    obtain ⟨s, rfl, hp⟩ := IPv4AddressE_ok h4
    exact ⟨s, rfl, Or.inl ⟨rfl, hp⟩⟩
  · rename_i e h4
    split at h
    · rename_i n h6
      injection h with h
      subst h
      obtain ⟨s, rfl, hp⟩ := IPv6AddressE_ok h6
      refine ⟨s, rfl, Or.inr ⟨rfl, ?_, hp⟩⟩
      cases hq : parseIPv4AddressChars s.data with
      | none => rfl
      | some m =>
        rw [IPv4AddressE_eq_ok hq] at h4
        exact Except.noConfusion h4
    · exact Except.noConfusion h

theorem ip_interfaceE_cases {v : Option String} {i : IPIntf}
    (h : ip_interfaceE v = .ok i) :
    ∃ s, v = some s ∧
      ((i.version = .v4 ∧ parseIPv4InterfaceChars s.data = some (i.addr, i.prefixLen)) ∨
        (i.version = .v6 ∧ parseIPv4InterfaceChars s.data = none ∧
          parseIPv6InterfaceChars s.data = some (i.addr, i.prefixLen))) := by
  unfold ip_interfaceE at h
  split at h
  · rename_i t a p h4
    injection h with h
    subst h
    obtain ⟨s, rfl, hp⟩ := IPv4InterfaceE_ok h4
    exact ⟨s, rfl, Or.inl ⟨rfl, hp⟩⟩
  · rename_i e h4
    split at h
    · rename_i t a p h6
      injection h with h
      subst h
      obtain ⟨s, rfl, hp⟩ := IPv6InterfaceE_ok h6
      refine ⟨s, rfl, Or.inr ⟨rfl, ?_, hp⟩⟩
      cases hq : parseIPv4InterfaceChars s.data with
      | none => rfl
      | some m =>
        have : IPv4InterfaceE (some s) = .ok m := by simp [IPv4InterfaceE, hq]
        rw [this] at h4
        exact Except.noConfusion h4
    · exact Except.noConfusion h

theorem ip_networkE_cases {v : Option String} {n : IPNet} (h : ip_networkE v = .ok n) :
    ∃ s, v = some s ∧
      ((n.version = .v4 ∧
          parseIPv4NetworkChars s.data = some (n.networkAddress, n.prefixLen)) ∨
        (n.version = .v6 ∧ parseIPv4NetworkChars s.data = none ∧
          parseIPv6NetworkChars s.data = some (n.networkAddress, n.prefixLen))) := by
  unfold ip_networkE at h
  split at h
  · rename_i t a p h4
    injection h with h
    subst h
    obtain ⟨s, rfl, hp⟩ := IPv4NetworkE_ok h4
    exact ⟨s, rfl, Or.inl ⟨rfl, hp⟩⟩
  · rename_i e h4
    split at h
    · rename_i t a p h6
      injection h with h
      subst h
      obtain ⟨s, rfl, hp⟩ := IPv6NetworkE_ok h6
      refine ⟨s, rfl, Or.inr ⟨rfl, ?_, hp⟩⟩
      cases hq : parseIPv4NetworkChars s.data with
      | none => rfl
      | some m =>
        have : IPv4NetworkE (some s) = .ok m := by simp [IPv4NetworkE, hq]
        rw [this] at h4
        exact Except.noConfusion h4
    · exact Except.noConfusion h

theorem ip_addressE_lt {v : Option String} {a : IPAddr} (h : ip_addressE v = .ok a) :
    a.value < 2 ^ widthV a.version := by
  obtain ⟨s, -, hc⟩ := ip_addressE_cases h
  rcases hc with ⟨h4, hp⟩ | ⟨h6, -, hp⟩
  · rw [h4, widthV]
    exact parseIPv4_lt hp
  · rw [h6, widthV]
    exact parseIPv6_lt hp

theorem ip_networkE_props {v : Option String} {n : IPNet} (h : ip_networkE v = .ok n) :
    n.networkAddress < 2 ^ widthV n.version ∧ n.prefixLen ≤ widthV n.version ∧
      n.networkAddress % 2 ^ (widthV n.version - n.prefixLen) = 0 := by
  obtain ⟨s, -, hc⟩ := ip_networkE_cases h
  rcases hc with ⟨h4, hp⟩ | ⟨h6, -, hp⟩
  · obtain ⟨hi, -⟩ := parseIPv4NetworkChars_inv hp
    obtain ⟨hv, hple⟩ := parseIPv4InterfaceChars_bounds hi
    rw [h4, widthV]
    exact ⟨hv, hple, parseIPv4NetworkChars_align hp⟩
  · obtain ⟨hi, -⟩ := parseIPv6NetworkChars_inv hp
    obtain ⟨hv, hple⟩ := parseIPv6InterfaceChars_bounds hi
    rw [h6, widthV]
    exact ⟨hv, hple, parseIPv6NetworkChars_align hp⟩

/-! ## Lemmas: totality of every exposed operation -/

theorem is_any_ip4_total (v : Option String) : ∃ b, is_any_ip4 v = .ok b := by
  unfold is_any_ip4
  cases IPv4NetworkE v with
  | ok n => exact ⟨true, rfl⟩
  | error e =>
    cases IPv4InterfaceE v with
    | ok i => exact ⟨true, rfl⟩
    | error e2 =>
      cases IPv4AddressE v with
      | ok a => exact ⟨true, rfl⟩
      | error e3 => exact ⟨false, rfl⟩

theorem is_net_ip4_total (v : Option String) : ∃ b, is_net_ip4 v = .ok b := by
  unfold is_net_ip4
  cases IPv4NetworkE v with
  | ok n => exact ⟨_, rfl⟩
  | error e =>
    cases IPv4InterfaceE v with
    | ok i => exact ⟨_, rfl⟩
    | error e2 => exact ⟨false, rfl⟩

theorem is_host_ip4_total (v : Option String) : ∃ b, is_host_ip4 v = .ok b := by
  unfold is_host_ip4
  cases IPv4AddressE v with
  | ok a => exact ⟨true, rfl⟩
  | error e => exact ⟨false, rfl⟩

theorem is_any_ip6_total (v : Option String) : ∃ b, is_any_ip6 v = .ok b := by
  unfold is_any_ip6
  cases IPv6NetworkE v with
  | ok n => exact ⟨true, rfl⟩
  | error e =>
    cases IPv6InterfaceE v with
    | ok i => exact ⟨true, rfl⟩
    | error e2 =>
      cases IPv6AddressE v with
      | ok a => exact ⟨true, rfl⟩
      | error e3 => exact ⟨false, rfl⟩

theorem is_net_ip6_total (v : Option String) : ∃ b, is_net_ip6 v = .ok b := by
  unfold is_net_ip6
  cases IPv6NetworkE v with
  | ok n => exact ⟨_, rfl⟩
  | error e =>
    cases IPv6InterfaceE v with
    | ok i => exact ⟨_, rfl⟩
    | error e2 => exact ⟨false, rfl⟩

theorem is_host_ip6_total (v : Option String) : ∃ b, is_host_ip6 v = .ok b := by
  unfold is_host_ip6
  cases IPv6AddressE v with
  | ok a => exact ⟨some true, rfl⟩
  | error e => exact ⟨none, rfl⟩

theorem is_any_ip_total (v : Option String) : ∃ b, is_any_ip v = .ok b := by
  unfold is_any_ip
  obtain ⟨b4, h4⟩ := is_any_ip4_total v
  rw [h4]
  cases b4 with
  | true => exact ⟨true, rfl⟩
  | false =>
    obtain ⟨b6, h6⟩ := is_any_ip6_total v
    exact ⟨b6, by simpa using h6⟩

theorem is_host_ip_total (v : Option String) : ∃ b, is_host_ip v = .ok b := by
  unfold is_host_ip
  obtain ⟨b4, h4⟩ := is_host_ip4_total v
  rw [h4]
  cases b4 with
  | true => exact ⟨some true, rfl⟩
  | false =>
    obtain ⟨b6, h6⟩ := is_host_ip6_total v
    exact ⟨b6, by simpa using h6⟩

theorem is_net_ip_total (v : Option String) : ∃ b, is_net_ip v = .ok b := by
  unfold is_net_ip
  obtain ⟨b4, h4⟩ := is_net_ip4_total v
  rw [h4]
  cases b4 with
  | true => exact ⟨true, rfl⟩
  | false =>
    obtain ⟨b6, h6⟩ := is_net_ip6_total v
    exact ⟨b6, by simpa using h6⟩

theorem ip_only_total (v : Option String) : ∃ r, ip_only v = .ok r := by
  unfold ip_only
  cases ip_addressE v with
  | ok a => exact ⟨_, rfl⟩
  | error e =>
    cases ip_interfaceE v with
    | ok i => exact ⟨_, rfl⟩
    | error e2 =>
      cases ip_networkE v with
      | ok n => exact ⟨_, rfl⟩
      | error e3 => exact ⟨none, rfl⟩

theorem in_subnet_total (v s : Option String) : ∃ b, in_subnet v s = .ok b := by
  cases hx : ip_only v with
  | error e => exact ⟨false, by simp [in_subnet, hx]⟩
  | ok x =>
    cases ha : ip_addressE x with
    | error e => exact ⟨false, by simp [in_subnet, hx, ha]⟩
    | ok a =>
      cases hn : to_subnet s with
      | error e => exact ⟨false, by simp [in_subnet, hx, ha, hn]⟩
      | ok n => exact ⟨netContains n a, by simp [in_subnet, hx, ha, hn]⟩

theorem make_nsf_total (f : Option String → Except PyErr (Option Bool))
    (ele : List XNode) : ∃ r, make_nsf f ele = .ok r := by
  cases ele with
  | nil => exact ⟨some false, rfl⟩
  | cons n rest =>
    cases ht : nodeTextE n with
    | error e => exact ⟨some false, by simp [make_nsf, ht]⟩
    | ok t =>
      cases hf : f t with
      | ok r => exact ⟨r, by simp [make_nsf, ht, hf]⟩
      | error e => exact ⟨some false, by simp [make_nsf, ht, hf]⟩

theorem nsf_in_subnet_total (ele : List XNode) (s : Option String) :
    ∃ b, nsf_in_subnet ele s = .ok b := by
  cases ele with
  | nil => exact ⟨false, rfl⟩
  | cons n rest =>
    cases ht : nodeTextE n with
    | error e => exact ⟨false, by simp [nsf_in_subnet, ht]⟩
    | ok t =>
      cases hb : in_subnet t s with
      | ok b => exact ⟨b, by simp [nsf_in_subnet, ht, hb]⟩
      | error e => exact ⟨false, by simp [nsf_in_subnet, ht, hb]⟩

/-! ## Lemmas: inversion of a false `is_any` result -/

theorem is_any_ip4_false {v : Option String} (h : is_any_ip4 v = .ok false) :
    IPv4NetworkE v = .error .err ∧ IPv4InterfaceE v = .error .err ∧
      IPv4AddressE v = .error .err := by
  unfold is_any_ip4 at h
  cases hn : IPv4NetworkE v with
  | ok n => rw [hn] at h; exact absurd h (by simp)
  | error e =>
    rw [hn] at h
    cases hi : IPv4InterfaceE v with
    | ok i => rw [hi] at h; exact absurd h (by simp)
    | error e2 =>
      rw [hi] at h
      cases ha : IPv4AddressE v with
      | ok a => rw [ha] at h; exact absurd h (by simp)
      | error e3 =>
        cases e; cases e2; cases e3
        exact ⟨rfl, rfl, rfl⟩

theorem is_any_ip6_false {v : Option String} (h : is_any_ip6 v = .ok false) :
    IPv6NetworkE v = .error .err ∧ IPv6InterfaceE v = .error .err ∧
      IPv6AddressE v = .error .err := by
  unfold is_any_ip6 at h
  cases hn : IPv6NetworkE v with
  | ok n => rw [hn] at h; exact absurd h (by simp)
  | error e =>
    rw [hn] at h
    cases hi : IPv6InterfaceE v with
    | ok i => rw [hi] at h; exact absurd h (by simp)
    | error e2 =>
      rw [hi] at h
      cases ha : IPv6AddressE v with
      | ok a => rw [ha] at h; exact absurd h (by simp)
      | error e3 =>
        cases e; cases e2; cases e3
        exact ⟨rfl, rfl, rfl⟩

/-! ## Lemmas: cache behaviour of `_to_subnet` / `in_subnet` -/

theorem cacheLookup_some {c : SubnetCache} {s : Option String} {n : IPNet}
    (hc : CacheOK c) (hl : cacheLookup c s = some n) : ip_networkE s = .ok n := by
  unfold cacheLookup at hl
  cases hf : List.find? (fun p => p.1 = s) c with
  | none => rw [hf] at hl; exact Option.noConfusion hl
  | some pr =>
    rw [hf] at hl
    injection hl with hl
    have hmem := List.mem_of_find?_eq_some hf
    have hpred := List.find?_some hf
    have hkey : pr.1 = s := by simpa using hpred
    rw [← hkey, hc pr hmem, hl]

theorem to_subnet_cached_fst {c : SubnetCache} {s : Option String} (hc : CacheOK c) :
    (to_subnet_cached c s).1 = ip_networkE s := by
  unfold to_subnet_cached
  cases hl : cacheLookup c s with
  | some n => exact (cacheLookup_some hc hl).symm
  | none => cases hn : ip_networkE s <;> rfl

theorem to_subnet_cached_snd {c : SubnetCache} {s : Option String} (hc : CacheOK c) :
    CacheOK (to_subnet_cached c s).2 := by
  unfold to_subnet_cached
  cases hl : cacheLookup c s with
  | some n => exact hc
  | none =>
    cases hn : ip_networkE s with
    | error e => exact hc
    | ok n =>
      intro p hp
      rcases List.mem_cons.1 hp with h1 | h1
      · rw [h1]
        exact hn
      · exact hc p h1

theorem in_subnet_cached_fst {v s : Option String} {c : SubnetCache} (hc : CacheOK c) :
    (in_subnet_cached v s c).1 = in_subnet v s := by
  cases hx : ip_only v with
  | error e => simp [in_subnet_cached, in_subnet, hx]
  | ok x =>
    cases ha : ip_addressE x with
    | error e => simp [in_subnet_cached, in_subnet, hx, ha]
    | ok a =>
      have hf := @to_subnet_cached_fst c s hc
      cases ht : to_subnet_cached c s with
      | mk r c1 =>
        rw [ht] at hf
        cases r with
        | ok n => simp [in_subnet_cached, in_subnet, to_subnet, hx, ha, ht, ← hf]
        | error e => simp [in_subnet_cached, in_subnet, to_subnet, hx, ha, ht, ← hf]

theorem in_subnet_cached_snd {v s : Option String} {c : SubnetCache} (hc : CacheOK c) :
    CacheOK (in_subnet_cached v s c).2 := by
  cases hx : ip_only v with
  | error e => simpa [in_subnet_cached, hx] using hc
  | ok x =>
    cases ha : ip_addressE x with
    | error e => simpa [in_subnet_cached, hx, ha] using hc
    | ok a =>
      have hs2 := @to_subnet_cached_snd c s hc
      cases ht : to_subnet_cached c s with
      | mk r c1 =>
        rw [ht] at hs2
        cases r with
        | ok n => simpa [in_subnet_cached, hx, ha, ht] using hs2
        | error e => simpa [in_subnet_cached, hx, ha, ht] using hs2

/-! ## Lemmas: character sets of successful parses -/

theorem mem_joinSep_elim {sep : Char} :
    ∀ {parts : List (List Char)} {c : Char}, c ∈ joinSep sep parts →
      c = sep ∨ ∃ p ∈ parts, c ∈ p := by
  intro parts
  induction parts with
  | nil => intro c hc; cases hc
  | cons p qs ih =>
    intro c hc
    cases qs with
    | nil =>
      simp only [joinSep] at hc
      exact Or.inr ⟨p, List.mem_cons_self _ _, hc⟩
    | cons q rs =>
      rw [joinSep_cons₂] at hc
      rcases List.mem_append.1 hc with h1 | h1
      · exact Or.inr ⟨p, List.mem_cons_self _ _, h1⟩
      · rcases List.mem_cons.1 h1 with h2 | h2
        · exact Or.inl h2
        · rcases ih h2 with h3 | ⟨r, hr, hcr⟩
          · exact Or.inl h3
          · exact Or.inr ⟨r, List.mem_cons_of_mem _ hr, hcr⟩

theorem length_splitOnChar (sep : Char) (l : List Char) :
    (splitOnChar sep l).length = l.count sep + 1 := by
  induction l with
  | nil => simp [splitOnChar]
  | cons c cs ih =>
    simp only [splitOnChar]
    cases h : splitOnChar sep cs with
    | nil => exact absurd h (splitOnChar_ne_nil sep cs)
    | cons p ps =>
      rw [h] at ih
      by_cases hc : c = sep
      · subst hc
        have hbeq : (c == c) = true := by simp
        simp only [if_pos rfl, List.length_cons, List.count_cons, hbeq, if_true]
        simp only [List.length_cons] at ih
        omega
      · have hbeq : (c == sep) = false := by simpa using hc
        simp only [if_neg hc, List.length_cons, List.count_cons, hbeq,
          Bool.false_eq_true, if_false]
        simp only [List.length_cons] at ih
        omega

theorem splitOnChar_two {sep : Char} {l a pr : List Char}
    (hs : splitOnChar sep l = [a, pr]) : l = a ++ sep :: pr := by
  have h2 := joinSep_splitOnChar sep l
  rw [hs, joinSep_cons₂] at h2
  simpa [joinSep] using h2.symm

theorem parseIPv4AddressChars_charset {l : List Char} {x : Nat}
    (h : parseIPv4AddressChars l = some x) :
    ∀ c ∈ l, isDecDigit c = true ∨ c = '.' := by
  obtain ⟨-, -, vals, hm, -⟩ := parseIPv4_props h
  intro c hc
  rw [← joinSep_splitOnChar '.' l] at hc
  rcases mem_joinSep_elim hc with h1 | ⟨p, hp, hcp⟩
  · exact Or.inr h1
  · obtain ⟨n, hn⟩ := mapM_option_isSome hm p hp
    exact Or.inl (List.all_eq_true.mp (parseOctet_props hn).2.1 c hcp)

theorem parseIPv4AddressChars_slash_none {l : List Char} (hs : '/' ∈ l) :
    parseIPv4AddressChars l = none := by
  cases h : parseIPv4AddressChars l with
  | none => rfl
  | some x =>
    rcases parseIPv4AddressChars_charset h '/' hs with h1 | h1
    · exact absurd h1 (by decide)
    · exact absurd h1 (by decide)

theorem parseIPv4AddressChars_no_colon {l : List Char} {x : Nat}
    (h : parseIPv4AddressChars l = some x) : ':' ∉ l := by
  intro hc
  rcases parseIPv4AddressChars_charset h ':' hc with h1 | h1
  · exact absurd h1 (by decide)
  · exact absurd h1 (by decide)

theorem prefixFromIpChars_parse {w : Nat} {ap : List Char → Option Nat} {l : List Char}
    {p : Nat} (h : prefixFromIpChars w ap l = some p) : ∃ ip, ap l = some ip := by
  unfold prefixFromIpChars at h
  split at h
  · exact Option.noConfusion h
  · rename_i ip ha
    exact ⟨ip, ha⟩

theorem parsePrefixLen_v4_no_colon {pr : List Char} {p : Nat}
    (h : parsePrefixLen 32 parseIPv4AddressChars pr = some p) : ':' ∉ pr := by
  intro hc
  unfold parsePrefixLen at h
  split_ifs at h with h1 h2
  · exact absurd (List.all_eq_true.mp h1.2 ':' hc) (by decide)
  · obtain ⟨ip, hip⟩ := prefixFromIpChars_parse h
    exact (parseIPv4AddressChars_no_colon hip) hc
  · obtain ⟨ip, hip⟩ := prefixFromIpChars_parse h
    exact (parseIPv4AddressChars_no_colon hip) hc

theorem parseIPv4InterfaceChars_no_colon {l : List Char} {v p : Nat}
    (h : parseIPv4InterfaceChars l = some (v, p)) : ':' ∉ l := by
  intro hc
  rcases parseIPv4InterfaceChars_cases h with ⟨ha, -, -⟩ | ⟨a, pr, hs, ha, hp⟩
  · exact (parseIPv4AddressChars_no_colon ha) hc
  · rw [splitOnChar_two hs] at hc
    rcases List.mem_append.1 hc with h1 | h1
    · exact (parseIPv4AddressChars_no_colon ha) h1
    · rcases List.mem_cons.1 h1 with h2 | h2
      · exact absurd h2 (by decide)
      · exact (parsePrefixLen_v4_no_colon hp) h2

theorem parseIPv6AddressChars_has_colon {l : List Char} {x : Nat}
    (h : parseIPv6AddressChars l = some x) : ':' ∈ l := by
  unfold parseIPv6AddressChars at h
  split_ifs at h with h1 h2 <;> try exact Option.noConfusion h
  have hcount := length_splitOnChar ':' l
  have hpos : 0 < l.count ':' := by omega
  exact List.count_pos_iff.mp hpos

theorem parseIPv6AddressChars_no_colon_none {l : List Char} (hc : ':' ∉ l) :
    parseIPv6AddressChars l = none := by
  cases h : parseIPv6AddressChars l with
  | none => rfl
  | some x => exact absurd (parseIPv6AddressChars_has_colon h) hc

theorem parseIPv6InterfaceChars_no_colon_none {l : List Char} (hc : ':' ∉ l) :
    parseIPv6InterfaceChars l = none := by
  cases h : parseIPv6InterfaceChars l with
  | none => rfl
  | some t =>
    obtain ⟨v, p⟩ := t
    rcases parseIPv6InterfaceChars_cases h with ⟨ha, -, -⟩ | ⟨a, pr, hs, ha, -⟩
    · exact absurd (parseIPv6AddressChars_has_colon ha) hc
    · have hal : a ∈ splitOnChar '/' l := hs ▸ List.mem_cons_self _ _
      have hcl : ':' ∈ l :=
        mem_of_mem_splitOnChar hal (parseIPv6AddressChars_has_colon ha)
      exact absurd hcl hc

theorem parseIPv6NetworkChars_no_colon_none {l : List Char} (hc : ':' ∉ l) :
    parseIPv6NetworkChars l = none := by
  unfold parseIPv6NetworkChars
  rw [parseIPv6InterfaceChars_no_colon_none hc]

theorem getElem_idx_congr {α : Type} {l : List α} {i j : Nat} (h : i = j)
    {hi : i < l.length} : getElem l i hi = getElem l j (h ▸ hi) := by
  subst h; rfl

theorem headD_eq_getElem {α : Type} (d : α) {l : List α} (h : 0 < l.length) :
    l.headD d = getElem l 0 h := by
  cases l with
  | nil => simp at h
  | cons a t => rfl

theorem getLastD_eq_getElem {α : Type} (d : α) {l : List α} (h : 0 < l.length) :
    l.getLastD d = getElem l (l.length - 1) (by omega) := by
  rw [List.getLastD_eq_getLast?, List.getLast?_eq_getElem?,
    List.getElem?_eq_getElem (by omega)]
  rfl

theorem v6ResolveLo_inv {parts : List (List Char)} {k hi0 hi lo sk : Nat}
    (h : v6ResolveLo parts k hi0 = some (hi, lo, sk)) :
    hi = hi0 ∧ hi + lo < 8 ∧ sk = 8 - (hi + lo) ∧
      (((parts.getLastD [' ']).isEmpty = false ∧ lo = parts.length - k - 1) ∨
        ((parts.getLastD [' ']).isEmpty = true ∧ parts.length - k - 2 = 0 ∧ lo = 0)) := by
  unfold v6ResolveLo at h
  split_ifs at h with hl hz
  · obtain ⟨h1, h2, h3, h4⟩ := v6ResolveFin_props h
    exact ⟨h1, by omega, by omega, Or.inr ⟨hl, by omega, h2⟩⟩
  · obtain ⟨h1, h2, h3, h4⟩ := v6ResolveFin_props h
    exact ⟨h1, by omega, by omega, Or.inl ⟨by simpa using hl, h2⟩⟩

theorem v6ResolveSkip_inv {parts : List (List Char)} {k hi lo sk : Nat} (hk : 1 ≤ k)
    (h : v6ResolveSkip parts k = some (hi, lo, sk)) :
    hi + lo < 8 ∧ sk = 8 - (hi + lo) ∧
      (((parts.headD [' ']).isEmpty = false ∧ hi = k) ∨
        ((parts.headD [' ']).isEmpty = true ∧ k = 1 ∧ hi = 0)) ∧
      (((parts.getLastD [' ']).isEmpty = false ∧ lo = parts.length - k - 1) ∨
        ((parts.getLastD [' ']).isEmpty = true ∧ parts.length - k - 2 = 0 ∧ lo = 0)) := by
  unfold v6ResolveSkip at h
  split_ifs at h with hh hz
  · obtain ⟨h1, h2, h3, h4⟩ := v6ResolveLo_inv h
    exact ⟨h2, h3, Or.inr ⟨hh, by omega, h1⟩, h4⟩
  · obtain ⟨h1, h2, h3, h4⟩ := v6ResolveLo_inv h
    exact ⟨h2, h3, Or.inl ⟨by simpa using hh, h1⟩, h4⟩

theorem v6Resolve_inv {parts : List (List Char)} {hi lo sk : Nat}
    (h : v6Resolve parts = some (hi, lo, sk)) :
    ((parts.drop 1).dropLast.countP (·.isEmpty) = 0 ∧ parts.length = 8 ∧
      hi = 8 ∧ lo = 0) ∨
    ((parts.drop 1).dropLast.countP (·.isEmpty) = 1 ∧
      v6ResolveSkip parts ((parts.drop 1).dropLast.findIdx (·.isEmpty) + 1) =
        some (hi, lo, sk)) := by
  unfold v6Resolve at h
  split_ifs at h with h1 h2 h3 h4 h5 <;> try exact Option.noConfusion h
  · exact Or.inr ⟨h2, h⟩
  · simp only [Option.some.injEq, Prod.mk.injEq] at h
    exact Or.inl ⟨by omega, by omega, by omega, by omega⟩

theorem v6Resolve_middle_empty {parts : List (List Char)} {hi lo sk : Nat}
    (hlen3 : 3 ≤ parts.length) (hr : v6Resolve parts = some (hi, lo, sk)) :
    ∀ i (hilt : i < parts.length), hi ≤ i → i < parts.length - lo →
      (getElem parts i hilt).isEmpty = true := by
  intro i hilt hge hlt
  rcases v6Resolve_inv hr with ⟨-, hlen, hhi, hlo⟩ | ⟨hcount, hskip⟩
  · omega
  · have hjlen : (parts.drop 1).dropLast.length = parts.length - 2 := by
      rw [List.length_dropLast, List.length_drop]
      omega
    have hpos : 0 < (parts.drop 1).dropLast.countP (·.isEmpty) := by omega
    have hex := List.countP_pos_iff.mp hpos
    have hjlt := List.findIdx_lt_length_of_exists hex
    set j := (parts.drop 1).dropLast.findIdx (·.isEmpty) with hjdef
    have hjb : j < parts.length - 2 := by omega
    have hfound : (getElem ((parts.drop 1).dropLast) j hjlt).isEmpty = true :=
      @List.findIdx_getElem _ _ _ hjlt
    rw [List.getElem_dropLast, List.getElem_drop] at hfound
    have hkempty : ∀ hh : j + 1 < parts.length, (getElem parts (j+1) hh).isEmpty = true := by
      intro hh
      rw [getElem_idx_congr (show j + 1 = 1 + j by omega)]
      exact hfound
    obtain ⟨hsum, hsk, hhead, hlast⟩ := v6ResolveSkip_inv (by omega) hskip
    rcases hhead with ⟨hh, hhi⟩ | ⟨hh, hk1, hhi⟩ <;>
      rcases hlast with ⟨hl, hlo⟩ | ⟨hl, hlz, hlo⟩
    · rw [getElem_idx_congr (show i = j + 1 by omega)]
      exact hkempty (by omega)
    · have hlen2 : parts.length = j + 3 := by omega
      rcases (by omega : i = j + 1 ∨ i = j + 2) with hcase | hcase
      · rw [getElem_idx_congr hcase]
        exact hkempty (by omega)
      · rw [getElem_idx_congr (show i = parts.length - 1 by omega)]
        rw [getLastD_eq_getElem ([' '] : List Char) (by omega)] at hl
        exact hl
    · have hj0 : j = 0 := by omega
      rcases (by omega : i = 0 ∨ i = 1) with hcase | hcase
      · rw [getElem_idx_congr hcase]
        rw [headD_eq_getElem ([' '] : List Char) (by omega)] at hh
        exact hh
      · rw [getElem_idx_congr (show i = j + 1 by omega)]
        exact hkempty (by omega)
    · have hj0 : j = 0 := by omega
      have hlen2 : parts.length = 3 := by omega
      rcases (by omega : i = 0 ∨ i = 1 ∨ i = 2) with hcase | hcase | hcase
      · rw [getElem_idx_congr hcase]
        rw [headD_eq_getElem ([' '] : List Char) (by omega)] at hh
        exact hh
      · rw [getElem_idx_congr (show i = j + 1 by omega)]
        exact hkempty (by omega)
      · rw [getElem_idx_congr (show i = parts.length - 1 by omega)]
        rw [getLastD_eq_getElem ([' '] : List Char) (by omega)] at hl
        exact hl

theorem v6_parts_empty_or_hex {parts : List (List Char)} {hi lo sk x : Nat}
    (hlen3 : 3 ≤ parts.length) (hr : v6Resolve parts = some (hi, lo, sk))
    (ha : v6Assemble parts hi lo sk = some x) :
    ∀ p ∈ parts, p.isEmpty = true ∨ p.all isHexDigitB = true := by
  intro p hp
  obtain ⟨i, hilt, rfl⟩ := List.mem_iff_getElem.mp hp
  unfold v6Assemble at ha
  split at ha
  · exact Option.noConfusion ha
  rename_i hs hm1
  split at ha
  · exact Option.noConfusion ha
  rename_i ls hm2
  by_cases h1 : i < hi
  · have htl : i < (parts.take hi).length := by
      rw [List.length_take]; omega
    have hmem : getElem parts i hilt ∈ parts.take hi :=
      List.mem_iff_getElem.mpr ⟨i, htl, List.getElem_take parts⟩
    obtain ⟨n, hn⟩ := mapM_option_isSome hm1 _ hmem
    exact Or.inr (parseHextet_props hn).2.1
  by_cases h2 : parts.length - lo ≤ i
  · have hdl : i - (parts.length - lo) < (parts.drop (parts.length - lo)).length := by
      rw [List.length_drop]; omega
    have hmem : getElem parts i hilt ∈ parts.drop (parts.length - lo) := by
      refine List.mem_iff_getElem.mpr ⟨i - (parts.length - lo), hdl, ?_⟩
      rw [List.getElem_drop]
      exact getElem_idx_congr (by omega)
    obtain ⟨n, hn⟩ := mapM_option_isSome hm2 _ hmem
    exact Or.inr (parseHextet_props hn).2.1
  · exact Or.inl (v6Resolve_middle_empty hlen3 hr i hilt (by omega) (by omega))

theorem v6ExpandV4_cases {parts0 parts : List (List Char)}
    (h : v6ExpandV4 parts0 = some parts) :
    (parts = parts0) ∨
      (∃ last v4, parts0.getLast? = some last ∧ '.' ∈ last ∧
        parseIPv4AddressChars last = some v4 ∧
        parts = parts0.dropLast ++
          [toHexChars ((v4 >>> 16) &&& 0xFFFF), toHexChars (v4 &&& 0xFFFF)]) := by
  unfold v6ExpandV4 at h
  split at h
  · exact Option.noConfusion h
  rename_i last hlast
  split_ifs at h with hdot
  · split at h
    · exact Option.noConfusion h
    rename_i v4 hv4
    injection h with h
    exact Or.inr ⟨last, v4, hlast, hdot, hv4, h.symm⟩
  · injection h with h
    exact Or.inl h.symm

theorem parseIPv6AddressChars_slash_none {l : List Char} (hs : '/' ∈ l) :
    parseIPv6AddressChars l = none := by
  cases h : parseIPv6AddressChars l with
  | none => rfl
  | some x =>
    exfalso
    unfold parseIPv6AddressChars at h
    split_ifs at h with h1 h2 <;> try exact Option.noConfusion h
    split at h
    · exact Option.noConfusion h
    rename_i parts he
    split_ifs at h with h3 <;> try exact Option.noConfusion h
    split at h
    · exact Option.noConfusion h
    rename_i t hi lo sk hr
    obtain ⟨p0, hp0, hsp0⟩ := @exists_part_of_mem ':' '/' l hs (by decide)
    have hne0 : p0 ≠ [] := fun hcon => by rw [hcon] at hsp0; cases hsp0
    have hlen0 : 3 ≤ (splitOnChar ':' l).length := by omega
    have hkill : ∀ q ∈ parts, '/' ∈ q → False := by
      intro q hq hslq
      have hlen3 : 3 ≤ parts.length := by
        rcases v6ExpandV4_cases he with hpe | ⟨last, v4, -, -, -, hpe⟩
        · rw [hpe]; exact hlen0
        · rw [hpe]
          rw [List.length_append, List.length_dropLast]
          simp only [List.length_cons, List.length_nil]
          omega
      rcases v6_parts_empty_or_hex hlen3 hr h q hq with hq1 | hq1
      · rw [List.isEmpty_iff] at hq1
        rw [hq1] at hslq
        cases hslq
      · exact absurd (List.all_eq_true.mp hq1 '/' hslq) (by decide)
    rcases v6ExpandV4_cases he with hpe | ⟨last, v4, hlast, -, hv4, hpe⟩
    · exact hkill p0 (hpe ▸ hp0) hsp0
    · have hne : (splitOnChar ':' l) ≠ [] := splitOnChar_ne_nil ':' l
      have hdec := List.dropLast_concat_getLast hne
      have hlast2 : (splitOnChar ':' l).getLast hne = last := by
        rw [List.getLast?_eq_getLast _ hne] at hlast
        simpa using hlast
      rw [hlast2] at hdec
      rw [← hdec] at hp0
      rcases List.mem_append.1 hp0 with hmem | hmem
      · exact hkill p0 (hpe ▸ List.mem_append_left _ hmem) hsp0
      · have hpl : p0 = last := by simpa using hmem
        subst hpl
        rcases parseIPv4AddressChars_charset hv4 '/' hsp0 with hbad | hbad
        · exact absurd hbad (by decide)
        · exact absurd hbad (by decide)


/-! ## Lemmas: full-width prefixes, host boundary, and `ip_only` branches -/

theorem land_netmask_full {x w : Nat} (hx : x < 2 ^ w) :
    x &&& netmaskInt w w = x :=
  (land_mask_eq_self_iff (Nat.le_refl w) hx).mpr (by simp [Nat.mod_one])

theorem network_of_interface_full_v4 {l : List Char} {v : Nat}
    (h : parseIPv4InterfaceChars l = some (v, 32)) :
    parseIPv4NetworkChars l = some (v, 32) := by
  have hb := (parseIPv4InterfaceChars_bounds h).1
  unfold parseIPv4NetworkChars
  rw [h]
  simp [land_netmask_full hb]

theorem network_of_interface_full_v6 {l : List Char} {v : Nat}
    (h : parseIPv6InterfaceChars l = some (v, 128)) :
    parseIPv6NetworkChars l = some (v, 128) := by
  have hb := (parseIPv6InterfaceChars_bounds h).1
  unfold parseIPv6NetworkChars
  rw [h]
  simp [land_netmask_full hb]

theorem interface_slash_of_prefix_ne_v4 {l : List Char} {v p : Nat}
    (h : parseIPv4InterfaceChars l = some (v, p)) (hp : p ≠ 32) : '/' ∈ l := by
  rcases parseIPv4InterfaceChars_cases h with ⟨-, hp32, -⟩ | ⟨a, pr, hs, -, -⟩
  · exact absurd hp32 hp
  · rw [splitOnChar_two hs]
    exact List.mem_append_right _ (List.mem_cons_self _ _)

theorem interface_slash_of_prefix_ne_v6 {l : List Char} {v p : Nat}
    (h : parseIPv6InterfaceChars l = some (v, p)) (hp : p ≠ 128) : '/' ∈ l := by
  rcases parseIPv6InterfaceChars_cases h with ⟨-, hp128, -⟩ | ⟨a, pr, hs, -, -⟩
  · exact absurd hp128 hp
  · rw [splitOnChar_two hs]
    exact List.mem_append_right _ (List.mem_cons_self _ _)

theorem address_interface_v4 {l : List Char} {x : Nat}
    (h : parseIPv4AddressChars l = some x) :
    parseIPv4InterfaceChars l = some (x, 32) := by
  have hs : '/' ∉ l := by
    intro hm
    rw [parseIPv4AddressChars_slash_none hm] at h
    exact Option.noConfusion h
  unfold parseIPv4InterfaceChars
  rw [splitOnChar_of_not_mem hs]
  simp [h]

theorem address_interface_v6 {l : List Char} {x : Nat}
    (h : parseIPv6AddressChars l = some x) :
    parseIPv6InterfaceChars l = some (x, 128) := by
  have hs : '/' ∉ l := by
    intro hm
    rw [parseIPv6AddressChars_slash_none hm] at h
    exact Option.noConfusion h
  unfold parseIPv6InterfaceChars
  rw [splitOnChar_of_not_mem hs]
  simp [h]

theorem parseIPv6InterfaceChars_has_colon {l : List Char} {v p : Nat}
    (h : parseIPv6InterfaceChars l = some (v, p)) : ':' ∈ l := by
  rcases parseIPv6InterfaceChars_cases h with ⟨ha, -, -⟩ | ⟨a, pr, hs, ha, -⟩
  · exact parseIPv6AddressChars_has_colon ha
  · have hal : a ∈ splitOnChar '/' l := hs ▸ List.mem_cons_self _ _
    exact mem_of_mem_splitOnChar hal (parseIPv6AddressChars_has_colon ha)

/-- A string accepted by the strict `ip_network` parse yields, through
`ip_only`'s three-stage fallback, exactly the canonical string of the
network's base address. -/
theorem ip_only_of_network {s : String} {n : IPNet}
    (h : ip_networkE (some s) = .ok n) :
    ip_only (some s) = .ok (some (addrToString ⟨n.version, n.networkAddress⟩)) := by
  obtain ⟨s', hs', hc⟩ := ip_networkE_cases h
  injection hs' with hs'
  subst hs'
  rcases hc with ⟨hver, hp4⟩ | ⟨hver, -, hp6⟩
  · obtain ⟨hi, -⟩ := parseIPv4NetworkChars_inv hp4
    have hnc : ':' ∉ s.data := parseIPv4InterfaceChars_no_colon hi
    cases ha : parseIPv4AddressChars s.data with
    | some x =>
      have hix := address_interface_v4 ha
      rw [hi] at hix
      simp only [Option.some.injEq, Prod.mk.injEq] at hix
      obtain ⟨hx, -⟩ := hix
      simp [ip_only, ip_addressE, IPv4AddressE, ha, hver, hx]
    | none =>
      have h6a : parseIPv6AddressChars s.data = none :=
        parseIPv6AddressChars_no_colon_none hnc
      have h6i : parseIPv6InterfaceChars s.data = none :=
        parseIPv6InterfaceChars_no_colon_none hnc
      simp [ip_only, ip_addressE, IPv4AddressE, IPv6AddressE, ha, h6a,
        ip_interfaceE, IPv4InterfaceE, IPv6InterfaceE, hi, h6i, hver]
  · obtain ⟨hi6, -⟩ := parseIPv6NetworkChars_inv hp6
    have hcol : ':' ∈ s.data := parseIPv6InterfaceChars_has_colon hi6
    have ha4 : parseIPv4AddressChars s.data = none := by
      cases hq : parseIPv4AddressChars s.data with
      | none => rfl
      | some x => exact absurd hcol (parseIPv4AddressChars_no_colon hq)
    have hi4 : parseIPv4InterfaceChars s.data = none := by
      cases hq : parseIPv4InterfaceChars s.data with
      | none => rfl
      | some t =>
        obtain ⟨v, p⟩ := t
        exact absurd hcol (parseIPv4InterfaceChars_no_colon hq)
    cases ha6 : parseIPv6AddressChars s.data with
    | some x =>
      have hix := address_interface_v6 ha6
      rw [hi6] at hix
      simp only [Option.some.injEq, Prod.mk.injEq] at hix
      obtain ⟨hx, -⟩ := hix
      simp [ip_only, ip_addressE, IPv4AddressE, IPv6AddressE, ha4, ha6, hver, hx]
    | none =>
      simp [ip_only, ip_addressE, IPv4AddressE, IPv6AddressE, ha4, ha6,
        ip_interfaceE, IPv4InterfaceE, IPv6InterfaceE, hi4, hi6, hver]

/-! ## Lemmas: printer digits round-trip -/

theorem hexValue_append_digit (l : List Char) (c : Char) :
    hexValue (l ++ [c]) = hexValue l * 16 + hexDigitVal c := by
  unfold hexValue
  rw [List.foldl_append]
  rfl

theorem hexDigitChar_spec : ∀ d, d < 16 →
    isHexDigitB (Char.ofNat (if d < 10 then '0'.toNat + d
      else 'a'.toNat + (d - 10))) = true ∧
    hexDigitVal (Char.ofNat (if d < 10 then '0'.toNat + d
      else 'a'.toNat + (d - 10))) = d := by
  decide

theorem toHexCharsAux_spec : ∀ fuel n, 0 < fuel → n < 16 ^ fuel →
    hexValue (toHexCharsAux fuel n) = n ∧
    (toHexCharsAux fuel n).all isHexDigitB = true ∧
    toHexCharsAux fuel n ≠ [] := by
  intro fuel
  induction fuel with
  | zero => intro n h; omega
  | succ f ih =>
    intro n hpos hn
    unfold toHexCharsAux
    by_cases h16 : n < 16
    · rw [if_pos h16]
      obtain ⟨hd, hv⟩ := hexDigitChar_spec n h16
      refine ⟨?_, ?_, by simp⟩
      · simpa [hexValue] using hv
      · simpa using hd
    · rw [if_neg h16]
      have hf : 0 < f := by
        rcases Nat.eq_zero_or_pos f with rfl | hp
        · simp at hn
          omega
        · exact hp
      have hdiv : n / 16 < 16 ^ f := by
        rw [Nat.div_lt_iff_lt_mul (by norm_num)]
        calc n < 16 ^ (f + 1) := hn
          _ = 16 ^ f * 16 := by ring
      obtain ⟨ihv, iha, ihne⟩ := ih (n / 16) hf hdiv
      obtain ⟨hd, hv⟩ := hexDigitChar_spec (n % 16) (Nat.mod_lt _ (by norm_num))
      refine ⟨?_, ?_, by simp⟩
      · rw [hexValue_append_digit, ihv, hv]
        omega
      · rw [List.all_append, iha]
        simpa using hd

theorem toHexCharsAux_len : ∀ fuel k n, 0 < k → k ≤ fuel → n < 16 ^ k →
    (toHexCharsAux fuel n).length ≤ k := by
  intro fuel
  induction fuel with
  | zero => intro k n hk hkf _; omega
  | succ f ih =>
    intro k n hk hkf hn
    unfold toHexCharsAux
    by_cases h16 : n < 16
    · rw [if_pos h16]
      simpa using hk
    · rw [if_neg h16]
      have hk2 : 2 ≤ k := by
        by_contra hlt
        push_neg at hlt
        have hk1 : k = 1 := by omega
        subst hk1
        simp at hn
        omega
      have hpow : 16 ^ (k - 1) * 16 = 16 ^ k := by
        rw [← Nat.pow_succ]
        congr 1
        omega
      have hdiv : n / 16 < 16 ^ (k - 1) := by
        rw [Nat.div_lt_iff_lt_mul (by norm_num)]
        omega
      have hrec := ih (k - 1) (n / 16) (by omega) (by omega) hdiv
      rw [List.length_append]
      simp only [List.length_singleton]
      omega

theorem toHexChars_spec (h : Nat) (h32 : h < 16 ^ 32) :
    hexValue (toHexChars h) = h ∧ (toHexChars h).all isHexDigitB = true ∧
      toHexChars h ≠ [] :=
  toHexCharsAux_spec 32 h (by norm_num) h32

theorem toHexChars_hextet (h : Nat) (hh : h < 65536) :
    parseHextet (toHexChars h) = some h := by
  have h32 : h < 16 ^ 32 := lt_of_lt_of_le hh (by norm_num)
  obtain ⟨hv, ha, hne⟩ := toHexChars_spec h h32
  have hlen : (toHexChars h).length ≤ 4 :=
    toHexCharsAux_len 32 4 h (by norm_num) (by norm_num) (by norm_num at hh ⊢; omega)
  unfold parseHextet
  rw [if_neg (by simpa using ha), if_neg (by omega : ¬ 4 < (toHexChars h).length),
    if_neg (by simp only [List.isEmpty_iff]; exact hne), hv]

theorem hex_char_ne {c : Char} (h : isHexDigitB c = true) :
    c ≠ ':' ∧ c ≠ '.' ∧ c ≠ '/' := by
  rw [isHexDigitB_iff] at h
  refine ⟨?_, ?_, ?_⟩ <;> intro he <;> subst he <;> simp at h <;> omega

theorem toHexChars_no_colon_dot (h : Nat) (hh : h < 65536) :
    ':' ∉ toHexChars h ∧ '.' ∉ toHexChars h := by
  have h32 : h < 16 ^ 32 := lt_of_lt_of_le hh (by norm_num)
  obtain ⟨-, ha, -⟩ := toHexCharsAux_spec 32 h (by norm_num) h32
  constructor <;> intro hc
  · exact absurd rfl (hex_char_ne (List.all_eq_true.mp ha ':' hc)).1
  · exact absurd rfl (hex_char_ne (List.all_eq_true.mp ha '.' hc)).2.1

theorem toHexChars_zero_iff {h : Nat} (hh : h < 65536) :
    toHexChars h = ['0'] ↔ h = 0 := by
  constructor
  · intro he
    have h1 := toHexChars_hextet h hh
    rw [he] at h1
    have h2 : parseHextet ['0'] = some 0 := by decide
    rw [h2] at h1
    injection h1 with h1
    omega
  · intro he
    subst he
    decide

set_option maxRecDepth 10000 in
theorem parseOctet_toDecChars : ∀ n, n < 256 → parseOctet (toDecChars n) = some n := by
  decide

theorem digitsBE_length (b : Nat) : ∀ k x, (digitsBE b k x).length = k := by
  intro k
  induction k with
  | zero => intro x; rfl
  | succ k ih =>
    intro x
    unfold digitsBE
    rw [List.length_append, ih]
    simp

theorem digitsBE_lt (b : Nat) (hb : 0 < b) :
    ∀ k x d, d ∈ digitsBE b k x → d < b := by
  intro k
  induction k with
  | zero => intro x d h; simp [digitsBE] at h
  | succ k ih =>
    intro x d h
    unfold digitsBE at h
    rcases List.mem_append.1 h with h1 | h1
    · exact ih (x / b) d h1
    · simp at h1
      subst h1
      exact Nat.mod_lt _ hb

theorem digitsBE_fold (b : Nat) :
    ∀ k x, (digitsBE b k x).foldl (fun a v => a * b + v) 0 = x % b ^ k := by
  intro k
  induction k with
  | zero => intro x; simp [digitsBE, Nat.mod_one]
  | succ k ih =>
    intro x
    unfold digitsBE
    rw [List.foldl_append]
    show (List.foldl _ 0 (digitsBE b k (x / b))) * b + x % b = x % b ^ (k + 1)
    rw [ih (x / b), Nat.pow_succ, Nat.mul_comm (b ^ k) b, Nat.mod_mul]
    ring

theorem printIPv4Chars_parse {x : Nat} (hx : x < 2 ^ 32) :
    parseIPv4AddressChars (printIPv4Chars x) = some x := by
  have hd4 : (digitsBE 256 4 x).length = 4 := digitsBE_length 256 4 x
  have hoct : ∀ d ∈ digitsBE 256 4 x, parseOctet (toDecChars d) = some d :=
    fun d hd => parseOctet_toDecChars d (digitsBE_lt 256 (by norm_num) 4 x d hd)
  have hmap : ((digitsBE 256 4 x).map toDecChars).mapM parseOctet =
      some (digitsBE 256 4 x) := mapM_option_roundtrip hoct
  have hsep : ∀ p ∈ (digitsBE 256 4 x).map toDecChars, '.' ∉ p := by
    intro p hp hc
    obtain ⟨d, hd, rfl⟩ := List.mem_map.1 hp
    have hdig := (parseOctet_props (hoct d hd)).2.1
    have := List.all_eq_true.mp hdig '.' hc
    exact absurd this (by decide)
  have hlen : ((digitsBE 256 4 x).map toDecChars).length = 4 := by simp [hd4]
  have hne : (digitsBE 256 4 x).map toDecChars ≠ [] := by
    intro h
    rw [h] at hlen
    simp at hlen
  have hsplit : splitOnChar '.' (printIPv4Chars x) = (digitsBE 256 4 x).map toDecChars := by
    unfold printIPv4Chars
    exact splitOnChar_joinSep hne hsep
  have hdot : '.' ∈ printIPv4Chars x := by
    unfold printIPv4Chars
    cases hm : (digitsBE 256 4 x).map toDecChars with
    | nil => rw [hm] at hlen; simp at hlen
    | cons pq ps =>
      cases ps with
      | nil => rw [hm] at hlen; simp at hlen
      | cons q qs =>
        exact sep_mem_joinSep pq q qs
  have hempty : (printIPv4Chars x).isEmpty = false := by
    cases hp : printIPv4Chars x with
    | nil => rw [hp] at hdot; cases hdot
    | cons a t => rfl
  unfold parseIPv4AddressChars
  split_ifs with h1 h2
  · rw [hempty] at h1; exact Bool.noConfusion h1
  · rw [hsplit, hlen] at h2
    exact absurd rfl h2
  · rw [hsplit, hmap]
    show some ((digitsBE 256 4 x).foldl (fun a v => a * 256 + v) 0) = some x
    rw [digitsBE_fold 256 4 x]
    have hmod : x % 256 ^ 4 = x := Nat.mod_eq_of_lt (lt_of_lt_of_le hx (by norm_num))
    rw [hmod]

/-! ## Lemmas: the hextet assembly fold and the zero-run scan -/

theorem foldHextets_append (a : Nat) (A B : List Nat) :
    foldHextets a (A ++ B) = foldHextets (foldHextets a A) B := by
  unfold foldHextets
  rw [List.foldl_append]

theorem foldHextets_zeros : ∀ (Z : List Nat), (∀ v ∈ Z, v = 0) → ∀ a,
    foldHextets a Z = a <<< (16 * Z.length) := by
  intro Z
  induction Z with
  | nil => intro h a; simp [foldHextets]
  | cons z Z ih =>
    intro h a
    have hz : z = 0 := h z (List.mem_cons_self _ _)
    subst hz
    show foldHextets ((a <<< 16) ||| 0) Z = a <<< (16 * (Z.length + 1))
    rw [Nat.or_zero, ih (fun v hv => h v (List.mem_cons_of_mem _ hv)) (a <<< 16),
      ← Nat.shiftLeft_add]
    congr 1
    ring

theorem foldHextets_eq_foldl : ∀ (vals : List Nat), (∀ v ∈ vals, v < 65536) → ∀ a,
    foldHextets a vals = vals.foldl (fun acc v => acc * 65536 + v) a := by
  intro vals
  induction vals with
  | nil => intro h a; rfl
  | cons v vals ih =>
    intro h a
    show foldHextets ((a <<< 16) ||| v) vals = List.foldl _ (a * 65536 + v) vals
    have h16 : (2 : Nat) ^ 16 = 65536 := by norm_num
    rw [shiftLeft16_or_eq a v (h16 ▸ h v (List.mem_cons_self _ _)), h16]
    exact ih (fun u hu => h u (List.mem_cons_of_mem _ hu)) _

theorem fold_split_zeros {vals : List Nat} {s e : Nat} (hse : s ≤ e)
    (he : e ≤ vals.length)
    (hz : ∀ i (h : i < vals.length), s ≤ i → i < e → vals[i] = 0) :
    foldHextets ((foldHextets 0 (vals.take s)) <<< (16 * (e - s))) (vals.drop e) =
      foldHextets 0 vals := by
  have hmidlen : ((vals.drop s).take (e - s)).length = e - s := by
    rw [List.length_take, List.length_drop]
    omega
  have hmidz : ∀ v ∈ (vals.drop s).take (e - s), v = 0 := by
    intro v hv
    obtain ⟨j, hj, hjv⟩ := List.mem_iff_getElem.1 hv
    have hj' : j < e - s := by rw [hmidlen] at hj; exact hj
    rw [List.getElem_take, List.getElem_drop] at hjv
    rw [← hjv]
    exact hz (s + j) (by omega) (by omega) (by omega)
  have hdecomp : vals.take s ++ ((vals.drop s).take (e - s) ++ vals.drop e) = vals := by
    rw [show vals.drop e = (vals.drop s).drop (e - s) by
      rw [List.drop_drop]; congr 1; omega]
    rw [List.take_append_drop, List.take_append_drop]
  calc foldHextets ((foldHextets 0 (vals.take s)) <<< (16 * (e - s))) (vals.drop e)
      = foldHextets (foldHextets (foldHextets 0 (vals.take s))
          ((vals.drop s).take (e - s))) (vals.drop e) := by
        rw [foldHextets_zeros _ hmidz, hmidlen]
    _ = foldHextets 0 (vals.take s ++ ((vals.drop s).take (e - s) ++ vals.drop e)) := by
        rw [foldHextets_append, foldHextets_append]
    _ = foldHextets 0 vals := by rw [hdecomp]

theorem compressStep_inv {hx : List (List Char)} {m : Nat} {st : CompState}
    (hinv : ScanInv hx m st) (hm : m < hx.length) :
    ScanInv hx (m + 1) (compressStep st (m, getElem hx m hm)) := by
  obtain ⟨hcur, hbest⟩ := hinv
  have hbest' : (st.bestLen = 0 ∧ st.bestStart = -1) ∨
      (0 ≤ st.bestStart ∧ st.bestStart.toNat + st.bestLen ≤ m + 1 ∧
        ∀ i (h : i < hx.length), st.bestStart.toNat ≤ i →
          i < st.bestStart.toNat + st.bestLen → hx[i] = ['0']) := by
    rcases hbest with h | ⟨h1, h2, h3⟩
    · exact Or.inl h
    · exact Or.inr ⟨h1, by omega, h3⟩
  unfold ScanInv
  simp only [compressStep]
  by_cases h0 : getElem hx m hm = ['0']
  · rw [if_pos (show (m, getElem hx m hm).2 = ['0'] from h0)]
    by_cases hcs : st.curStart = -1
    · have hcl : st.curLen = 0 := by
        rcases hcur with ⟨h1, -⟩ | ⟨h1, -, -⟩
        · exact h1
        · rw [hcs] at h1
          exact absurd h1 (by decide)
      rw [if_pos hcs]
      have hrun : ∀ i (hi : i < hx.length), m ≤ i → i < m + 1 → hx[i] = ['0'] := by
        intro i hi hge hlt
        have hieq : i = m := by omega
        subst hieq
        exact h0
      by_cases hbl : st.bestLen < st.curLen + 1
      · rw [if_pos hbl]
        dsimp only
        refine ⟨Or.inr ⟨by omega, by omega, ?_⟩, Or.inr ⟨by omega, by omega, ?_⟩⟩ <;>
          · intro i hi hge hlt
            exact hrun i hi (by omega) (by omega)
      · rw [if_neg hbl]
        dsimp only
        refine ⟨Or.inr ⟨by omega, by omega, ?_⟩, hbest'⟩
        intro i hi hge hlt
        exact hrun i hi (by omega) (by omega)
    · obtain ⟨hge, hsum, hrun0⟩ : 0 ≤ st.curStart ∧ st.curStart.toNat + st.curLen = m ∧
          ∀ i (h : i < hx.length), st.curStart.toNat ≤ i → i < m → hx[i] = ['0'] := by
        rcases hcur with ⟨-, h1⟩ | h
        · exact absurd h1 hcs
        · exact h
      rw [if_neg hcs]
      have hrun : ∀ i (hi : i < hx.length), st.curStart.toNat ≤ i → i < m + 1 →
          hx[i] = ['0'] := by
        intro i hi hge2 hlt
        rcases Nat.lt_or_ge i m with h1 | h1
        · exact hrun0 i hi hge2 h1
        · have hieq : i = m := by omega
          subst hieq
          exact h0
      by_cases hbl : st.bestLen < st.curLen + 1
      · rw [if_pos hbl]
        dsimp only
        refine ⟨Or.inr ⟨hge, by omega, ?_⟩, Or.inr ⟨hge, by omega, ?_⟩⟩ <;>
          · intro i hi hge2 hlt
            exact hrun i hi (by omega) (by omega)
      · rw [if_neg hbl]
        dsimp only
        refine ⟨Or.inr ⟨hge, by omega, ?_⟩, hbest'⟩
        intro i hi hge2 hlt
        exact hrun i hi (by omega) (by omega)
  · rw [if_neg (show ¬ (m, getElem hx m hm).2 = ['0'] from h0)]
    dsimp only
    exact ⟨Or.inl ⟨rfl, rfl⟩, hbest'⟩

theorem compressStep_fold_inv (hx : List (List Char)) :
    ∀ (rest : List (List Char)) (m : Nat) (st : CompState),
      m + rest.length = hx.length →
      (∀ j (hj : j < rest.length), ∃ hmj : m + j < hx.length,
        rest[j] = getElem hx (m + j) hmj) →
      ScanInv hx m st →
      ScanInv hx hx.length (List.foldl compressStep st (List.enumFrom m rest)) := by
  intro rest
  induction rest with
  | nil =>
    intro m st hlen hget hinv
    simp only [List.length_nil] at hlen
    rw [← hlen]
    exact hinv
  | cons a rest ih =>
    intro m st hlen hget hinv
    rw [List.enumFrom_cons]
    show ScanInv hx hx.length
      (List.foldl compressStep (compressStep st (m, a)) (List.enumFrom (m + 1) rest))
    have hm : m < hx.length := by
      simp only [List.length_cons] at hlen
      omega
    obtain ⟨hm0, ha0⟩ := hget 0 (by simp)
    have ha : a = getElem hx m hm := by
      have : (a :: rest)[0] = a := rfl
      rw [this] at ha0
      rw [ha0]
      exact getElem_idx_congr (by omega)
    rw [ha]
    refine ih (m + 1) (compressStep st (m, getElem hx m hm))
      (by simp only [List.length_cons] at hlen; omega) ?_ (compressStep_inv hinv hm)
    intro j hj
    obtain ⟨hmj, hj2⟩ := hget (j + 1) (by simp only [List.length_cons]; omega)
    refine ⟨by omega, ?_⟩
    have h1 : getElem (a :: rest) (j + 1)
        (by simp only [List.length_cons]; omega) = getElem rest j hj := rfl
    rw [h1] at hj2
    rw [hj2]
    exact getElem_idx_congr (by omega)

theorem compress_scan_inv (hx : List (List Char)) :
    ScanInv hx hx.length (List.foldl compressStep ⟨-1, 0, -1, 0⟩ hx.enum) := by
  have h0 : ScanInv hx 0 ⟨-1, 0, -1, 0⟩ := ⟨Or.inl ⟨rfl, rfl⟩, Or.inl ⟨rfl, rfl⟩⟩
  have hget : ∀ j (hj : j < hx.length), ∃ hmj : 0 + j < hx.length,
      hx[j] = getElem hx (0 + j) hmj :=
    fun j hj => ⟨by omega, getElem_idx_congr (by omega)⟩
  exact compressStep_fold_inv hx hx 0 ⟨-1, 0, -1, 0⟩ (by omega) hget h0

theorem compress_best_run {hx : List (List Char)}
    (hbl : 1 < (List.foldl compressStep ⟨-1, 0, -1, 0⟩ hx.enum).bestLen) :
    0 ≤ (List.foldl compressStep ⟨-1, 0, -1, 0⟩ hx.enum).bestStart ∧
    (List.foldl compressStep ⟨-1, 0, -1, 0⟩ hx.enum).bestStart.toNat +
      (List.foldl compressStep ⟨-1, 0, -1, 0⟩ hx.enum).bestLen ≤ hx.length ∧
    ∀ i (h : i < hx.length),
      (List.foldl compressStep ⟨-1, 0, -1, 0⟩ hx.enum).bestStart.toNat ≤ i →
      i < (List.foldl compressStep ⟨-1, 0, -1, 0⟩ hx.enum).bestStart.toNat +
        (List.foldl compressStep ⟨-1, 0, -1, 0⟩ hx.enum).bestLen →
      hx[i] = ['0'] := by
  obtain ⟨-, hbest⟩ := compress_scan_inv hx
  rcases hbest with ⟨h1, -⟩ | h
  · omega
  · exact h

/-! ## Lemmas: forward evaluation of the IPv6 parser on printer shapes -/

theorem v6ExpandV4_no_dot {parts : List (List Char)} {last : List Char}
    (h : parts.getLast? = some last) (hd : '.' ∉ last) :
    v6ExpandV4 parts = some parts := by
  unfold v6ExpandV4
  rw [h]
  simp [hd]

theorem findIdx_append_not {α : Type} (p : α → Bool) (A B : List α)
    (h : ∀ a ∈ A, p a = false) :
    (A ++ B).findIdx p = A.length + B.findIdx p := by
  induction A with
  | nil => simp
  | cons a A ih =>
    rw [List.cons_append, List.findIdx_cons, h a (List.mem_cons_self _ _),
      ih (fun x hx => h x (List.mem_cons_of_mem _ hx))]
    simp only [Bool.cond_false, List.length_cons]
    omega

theorem v6ResolveLo_shape (P Q' : List (List Char)) (lastQ : List Char) (hi q : Nat)
    (hQcase : (Q' = [] ∧ lastQ = [] ∧ q = 0) ∨
      (lastQ.isEmpty = false ∧ q = Q'.length + 1))
    (hhq : hi + q < 8) :
    v6ResolveLo (P ++ ([] : List Char) :: (Q' ++ [lastQ])) P.length hi =
      some (hi, q, 8 - (hi + q)) := by
  have hassoc : P ++ ([] : List Char) :: (Q' ++ [lastQ]) =
      (P ++ ([] : List Char) :: Q') ++ [lastQ] := by simp
  have hlastD : (P ++ ([] : List Char) :: (Q' ++ [lastQ])).getLastD [' '] = lastQ := by
    rw [hassoc, List.getLastD_concat]
  unfold v6ResolveLo
  rw [hlastD]
  rcases hQcase with ⟨hQ0, hl0, hq0⟩ | ⟨hlne, hq⟩
  · subst hQ0
    subst hl0
    subst hq0
    rw [if_pos (show ([] : List Char).isEmpty = true from rfl)]
    rw [if_neg (by
      simp only [List.length_append, List.length_cons, List.length_nil,
        List.nil_append]
      omega)]
    unfold v6ResolveFin
    rw [if_neg (by omega)]
  · rw [if_neg (by simp [hlne])]
    have hlen : (P ++ ([] : List Char) :: (Q' ++ [lastQ])).length =
        P.length + Q'.length + 2 := by
      simp only [List.length_append, List.length_cons, List.length_nil]
      omega
    rw [hlen]
    have harith : P.length + Q'.length + 2 - P.length - 1 = q := by omega
    rw [harith]
    unfold v6ResolveFin
    rw [if_neg (by omega)]

theorem v6ResolveSkip_shape (P0 : List Char) (P' Q : List (List Char)) (p q : Nat)
    (hP : (P0 = [] ∧ P' = [] ∧ p = 0) ∨
      (P0.isEmpty = false ∧ (P0 :: P').length = p))
    (hQ : (Q = [([] : List Char)] ∧ q = 0) ∨
      (Q ≠ [] ∧ (∀ r ∈ Q, r.isEmpty = false) ∧ Q.length = q))
    (hpq : p + q < 8) :
    v6ResolveSkip ((P0 :: P') ++ ([] : List Char) :: Q) (P0 :: P').length =
      some (p, q, 8 - (p + q)) := by
  have hQne : Q ≠ [] := by
    rcases hQ with ⟨h1, -⟩ | ⟨h1, -, -⟩
    · rw [h1]; simp
    · exact h1
  obtain ⟨Q', lastQ, hQs⟩ : ∃ Q' lastQ, Q = Q' ++ [lastQ] := by
    rcases List.eq_nil_or_concat Q with h | ⟨L, b, h⟩
    · exact absurd h hQne
    · exact ⟨L, b, by rw [h, List.concat_eq_append]⟩
  have hQcase : (Q' = [] ∧ lastQ = [] ∧ q = 0) ∨
      (lastQ.isEmpty = false ∧ q = Q'.length + 1) := by
    rcases hQ with ⟨h1, hq0⟩ | ⟨-, hflat, hqlen⟩
    · rw [hQs] at h1
      have hlen1 : Q'.length + 1 = 1 := by
        have hll := congrArg List.length h1
        simpa using hll
      have hQ'0 : Q' = [] := List.length_eq_zero.mp (by omega)
      subst hQ'0
      simp only [List.nil_append] at h1
      have hl0 : lastQ = [] := by injection h1
      exact Or.inl ⟨rfl, hl0, hq0⟩
    · refine Or.inr ⟨hflat lastQ (by rw [hQs]; simp), ?_⟩
      rw [hQs] at hqlen
      simp only [List.length_append, List.length_cons, List.length_nil] at hqlen
      omega
  unfold v6ResolveSkip
  have hhead : (((P0 :: P') ++ ([] : List Char) :: Q)).headD [' '] = P0 := rfl
  rw [hhead]
  rcases hP with ⟨hP0, hP', hp0⟩ | ⟨hPne, hplen⟩
  · subst hP0
    subst hP'
    subst hp0
    rw [if_pos (show ([] : List Char).isEmpty = true from rfl)]
    rw [if_neg (by simp)]
    rw [hQs]
    exact v6ResolveLo_shape [([] : List Char)] Q' lastQ 0 q hQcase hpq
  · rw [if_neg (by simp [hPne])]
    rw [hQs, ← hplen]
    exact v6ResolveLo_shape (P0 :: P') Q' lastQ (P0 :: P').length q hQcase
      (by omega)

theorem v6Resolve_shape (P Q : List (List Char)) (p q : Nat)
    (hP : (P = [([] : List Char)] ∧ p = 0) ∨
      (P ≠ [] ∧ (∀ r ∈ P, r.isEmpty = false) ∧ P.length = p))
    (hQ : (Q = [([] : List Char)] ∧ q = 0) ∨
      (Q ≠ [] ∧ (∀ r ∈ Q, r.isEmpty = false) ∧ Q.length = q))
    (hpq : p + q < 8) :
    v6Resolve (P ++ ([] : List Char) :: Q) = some (p, q, 8 - (p + q)) := by
  have hPne : P ≠ [] := by
    rcases hP with ⟨h1, -⟩ | ⟨h1, -, -⟩
    · rw [h1]; simp
    · exact h1
  obtain ⟨P0, P', hPs⟩ : ∃ P0 P', P = P0 :: P' := by
    cases P with
    | nil => exact absurd rfl hPne
    | cons a t => exact ⟨a, t, rfl⟩
  subst hPs
  have hQne : Q ≠ [] := by
    rcases hQ with ⟨h1, -⟩ | ⟨h1, -, -⟩
    · rw [h1]; simp
    · exact h1
  obtain ⟨Q', lastQ, hQs⟩ : ∃ Q' lastQ, Q = Q' ++ [lastQ] := by
    rcases List.eq_nil_or_concat Q with h | ⟨L, b, h⟩
    · exact absurd h hQne
    · exact ⟨L, b, by rw [h, List.concat_eq_append]⟩
  have hP'flat : ∀ r ∈ P', r.isEmpty = false := by
    rcases hP with ⟨h1, -⟩ | ⟨-, hne, -⟩
    · intro r hr
      injection h1 with h1a h1b
      rw [h1b] at hr
      cases hr
    · exact fun r hr => hne r (List.mem_cons_of_mem _ hr)
  have hQ'flat : ∀ r ∈ Q', r.isEmpty = false := by
    rcases hQ with ⟨h1, -⟩ | ⟨-, hne, -⟩
    · intro r hr
      rw [hQs] at h1
      have hlen1 : Q'.length + 1 = 1 := by
        have hll := congrArg List.length h1
        simpa using hll
      have hQ'0 : Q' = [] := List.length_eq_zero.mp (by omega)
      rw [hQ'0] at hr
      cases hr
    · intro r hr
      exact hne r (by rw [hQs]; exact List.mem_append_left _ hr)
  have hmid : (((P0 :: P') ++ ([] : List Char) :: Q).drop 1).dropLast =
      P' ++ ([] : List Char) :: Q' := by
    show (P' ++ ([] : List Char) :: Q).dropLast = P' ++ ([] : List Char) :: Q'
    rw [hQs]
    rw [show P' ++ ([] : List Char) :: (Q' ++ [lastQ]) =
      (P' ++ ([] : List Char) :: Q') ++ [lastQ] by simp]
    exact List.dropLast_concat
  have hcP' : P'.countP (·.isEmpty) = 0 := by
    rw [List.countP_eq_zero]
    intro r hr
    simp [hP'flat r hr]
  have hcQ' : Q'.countP (·.isEmpty) = 0 := by
    rw [List.countP_eq_zero]
    intro r hr
    simp [hQ'flat r hr]
  have hcnt : (P' ++ ([] : List Char) :: Q').countP (·.isEmpty) = 1 := by
    rw [List.countP_append, hcP', List.countP_cons, hcQ']
    simp
  have hfind : (P' ++ ([] : List Char) :: Q').findIdx (·.isEmpty) = P'.length := by
    rw [findIdx_append_not _ _ _ (fun r hr => by simp [hP'flat r hr])]
    rw [List.findIdx_cons]
    simp
  unfold v6Resolve
  rw [hmid, hcnt, hfind]
  rw [if_neg (by omega), if_pos (show (1 : Nat) = 1 from rfl)]
  have hPcase : (P0 = [] ∧ P' = [] ∧ p = 0) ∨
      (P0.isEmpty = false ∧ (P0 :: P').length = p) := by
    rcases hP with ⟨h1, hp0⟩ | ⟨-, hne, hplen⟩
    · injection h1 with h1a h1b
      exact Or.inl ⟨h1a, h1b, hp0⟩
    · exact Or.inr ⟨hne P0 (List.mem_cons_self _ _), hplen⟩
  have hlen1 : P'.length + 1 = (P0 :: P').length := rfl
  rw [hlen1]
  exact v6ResolveSkip_shape P0 P' Q p q hPcase hQ hpq

theorem v6Assemble_shape (P Q : List (List Char)) (p q sk : Nat) (pv qv : List Nat)
    (hP : (P = [([] : List Char)] ∧ p = 0 ∧ pv = []) ∨
      (P.length = p ∧ P.mapM parseHextet = some pv))
    (hQ : (Q = [([] : List Char)] ∧ q = 0 ∧ qv = []) ∨
      (Q.length = q ∧ Q.mapM parseHextet = some qv)) :
    v6Assemble (P ++ ([] : List Char) :: Q) p q sk =
      some (foldHextets ((foldHextets 0 pv) <<< (16 * sk)) qv) := by
  have htake : ((P ++ ([] : List Char) :: Q).take p).mapM parseHextet = some pv := by
    rcases hP with ⟨h1, hp0, hpv⟩ | ⟨hlen, hm⟩
    · subst hp0
      subst hpv
      rfl
    · subst hlen
      rw [List.take_left]
      exact hm
  have hdrop : ((P ++ ([] : List Char) :: Q).drop
      ((P ++ ([] : List Char) :: Q).length - q)).mapM parseHextet = some qv := by
    rcases hQ with ⟨h1, hq0, hqv⟩ | ⟨hlen, hm⟩
    · subst hq0
      subst hqv
      rw [Nat.sub_zero, List.drop_length]
      rfl
    · subst hlen
      have hl : (P ++ ([] : List Char) :: Q).length - Q.length =
          (P ++ [([] : List Char)]).length := by
        simp only [List.length_append, List.length_cons, List.length_nil]
        omega
      rw [hl, show P ++ ([] : List Char) :: Q = (P ++ [([] : List Char)]) ++ Q by simp,
        List.drop_left]
      exact hm
  unfold v6Assemble
  rw [htake, hdrop]

theorem parse_uncompressed (R : List (List Char)) (rv : List Nat)
    (hlen : R.length = 8) (hm : R.mapM parseHextet = some rv) :
    parseIPv6AddressChars (joinSep ':' R) = some (foldHextets 0 rv) := by
  have hparts : ∀ r ∈ R, ∃ n, parseHextet r = some n := mapM_option_isSome hm
  have hflat : ∀ r ∈ R, r.isEmpty = false := by
    intro r hr
    obtain ⟨n, hn⟩ := hparts r hr
    cases hc : r.isEmpty
    · rfl
    · exact absurd (List.isEmpty_iff.mp hc) (parseHextet_props hn).1
  have hsep : ∀ r ∈ R, ':' ∉ r := by
    intro r hr hc
    obtain ⟨n, hn⟩ := hparts r hr
    exact absurd rfl
      (hex_char_ne (List.all_eq_true.mp (parseHextet_props hn).2.1 ':' hc)).1
  have hRne : R ≠ [] := by
    intro h
    rw [h] at hlen
    simp at hlen
  have hsplit : splitOnChar ':' (joinSep ':' R) = R := splitOnChar_joinSep hRne hsep
  obtain ⟨R0, R', hRs⟩ : ∃ R0 R', R = R0 :: R' := by
    cases R with
    | nil => exact absurd rfl hRne
    | cons a t => exact ⟨a, t, rfl⟩
  obtain ⟨R'', lastR, hRc⟩ : ∃ R'' lastR, R = R'' ++ [lastR] := by
    rcases List.eq_nil_or_concat R with h | ⟨L, b, h⟩
    · exact absurd h hRne
    · exact ⟨L, b, by rw [h, List.concat_eq_append]⟩
  have hcolon : ':' ∈ joinSep ':' R := by
    rw [hRs]
    cases hR' : R' with
    | nil =>
      exfalso
      rw [hRs, hR'] at hlen
      simp at hlen
    | cons b rest => exact sep_mem_joinSep R0 b rest
  have hni : ¬ (joinSep ':' R).isEmpty = true := by
    intro h
    rw [List.isEmpty_iff.mp h] at hcolon
    cases hcolon
  have hlast2 : R.getLast? = some lastR := by
    rw [hRc]
    exact List.getLast?_concat _
  have hlastdot : '.' ∉ lastR := by
    intro hc
    obtain ⟨n, hn⟩ := hparts lastR (by rw [hRc]; simp)
    exact absurd rfl
      (hex_char_ne (List.all_eq_true.mp (parseHextet_props hn).2.1 '.' hc)).2.1
  have hexp : v6ExpandV4 R = some R := v6ExpandV4_no_dot hlast2 hlastdot
  have hres : v6Resolve R = some (8, 0, 0) := by
    unfold v6Resolve
    have hcnt : ((R.drop 1).dropLast).countP (·.isEmpty) = 0 := by
      rw [List.countP_eq_zero]
      intro r hr
      simp [hflat r (List.drop_subset _ _ (List.dropLast_subset _ hr))]
    rw [hcnt]
    rw [if_neg (by omega), if_neg (by omega), if_neg (by omega)]
    have hh : R.headD [' '] = R0 := by rw [hRs]; rfl
    have hgl : R.getLastD [' '] = lastR := by rw [hRc]; exact List.getLastD_concat _ _ _
    rw [hh, hgl]
    rw [if_neg (by simp [hflat R0 (by rw [hRs]; exact List.mem_cons_self _ _)]),
      if_neg (by simp [hflat lastR (by rw [hRc]; simp)])]
  have hasm : v6Assemble R 8 0 0 = some (foldHextets 0 rv) := by
    unfold v6Assemble
    have ht : R.take 8 = R := List.take_of_length_le (by omega)
    have hd : R.drop (R.length - 0) = [] := by rw [Nat.sub_zero, List.drop_length]
    rw [ht, hm, hd]
    show some (foldHextets ((foldHextets 0 rv) <<< (16 * 0)) []) =
      some (foldHextets 0 rv)
    rw [show (16 * 0 : Nat) = 0 from rfl, Nat.shiftLeft_zero]
    rfl
  unfold parseIPv6AddressChars
  rw [if_neg hni, hsplit]
  rw [if_neg (by omega)]
  simp only [hexp]
  rw [if_neg (by omega)]
  simp only [hres]
  exact hasm

theorem parse_compressed (P Q : List (List Char)) (p q : Nat) (pv qv : List Nat)
    (hP : (P = [([] : List Char)] ∧ p = 0 ∧ pv = []) ∨
      (0 < p ∧ P.length = p ∧ P.mapM parseHextet = some pv))
    (hQ : (Q = [([] : List Char)] ∧ q = 0 ∧ qv = []) ∨
      (0 < q ∧ Q.length = q ∧ Q.mapM parseHextet = some qv))
    (hpq : p + q < 8) (hlen8 : P.length + Q.length ≤ 8) :
    parseIPv6AddressChars (joinSep ':' (P ++ ([] : List Char) :: Q)) =
      some (foldHextets ((foldHextets 0 pv) <<< (16 * (8 - (p + q)))) qv) := by
  have hPok : ∀ r ∈ P, r = [] ∨ ∃ n, parseHextet r = some n := by
    rcases hP with ⟨h1, -, -⟩ | ⟨-, -, hm⟩
    · intro r hr
      rw [h1] at hr
      simp at hr
      exact Or.inl hr
    · exact fun r hr => Or.inr (mapM_option_isSome hm r hr)
  have hQok : ∀ r ∈ Q, r = [] ∨ ∃ n, parseHextet r = some n := by
    rcases hQ with ⟨h1, -, -⟩ | ⟨-, -, hm⟩
    · intro r hr
      rw [h1] at hr
      simp at hr
      exact Or.inl hr
    · exact fun r hr => Or.inr (mapM_option_isSome hm r hr)
  have hallok : ∀ r ∈ P ++ ([] : List Char) :: Q,
      r = [] ∨ ∃ n, parseHextet r = some n := by
    intro r hr
    rcases List.mem_append.1 hr with h1 | h1
    · exact hPok r h1
    · rcases List.mem_cons.1 h1 with h2 | h2
      · exact Or.inl h2
      · exact hQok r h2
  have hsep : ∀ r ∈ P ++ ([] : List Char) :: Q, ':' ∉ r := by
    intro r hr hc
    rcases hallok r hr with h | ⟨n, hn⟩
    · rw [h] at hc
      cases hc
    · exact absurd rfl
        (hex_char_ne (List.all_eq_true.mp (parseHextet_props hn).2.1 ':' hc)).1
  have hwne : P ++ ([] : List Char) :: Q ≠ [] := by
    intro h
    have hl := congrArg List.length h
    simp only [List.length_append, List.length_cons, List.length_nil] at hl
    omega
  have hsplit : splitOnChar ':' (joinSep ':' (P ++ ([] : List Char) :: Q)) =
      P ++ ([] : List Char) :: Q := splitOnChar_joinSep hwne hsep
  have hPne : P ≠ [] := by
    rcases hP with ⟨h1, -, -⟩ | ⟨hp, hlen, -⟩
    · rw [h1]
      simp
    · intro h
      rw [h] at hlen
      simp at hlen
      omega
  have hQne : Q ≠ [] := by
    rcases hQ with ⟨h1, -, -⟩ | ⟨hp, hlen, -⟩
    · rw [h1]
      simp
    · intro h
      rw [h] at hlen
      simp at hlen
      omega
  obtain ⟨P0, P', hPs⟩ : ∃ P0 P', P = P0 :: P' := by
    cases P with
    | nil => exact absurd rfl hPne
    | cons a t => exact ⟨a, t, rfl⟩
  have hcolon : ':' ∈ joinSep ':' (P ++ ([] : List Char) :: Q) := by
    rw [hPs, List.cons_append]
    cases hPP : P' ++ ([] : List Char) :: Q with
    | nil =>
      exfalso
      have hl := congrArg List.length hPP
      simp only [List.length_append, List.length_cons, List.length_nil] at hl
      omega
    | cons b rest => exact sep_mem_joinSep P0 b rest
  have hni : ¬ (joinSep ':' (P ++ ([] : List Char) :: Q)).isEmpty = true := by
    intro h
    rw [List.isEmpty_iff.mp h] at hcolon
    cases hcolon
  obtain ⟨Q'', lastQ, hQc⟩ : ∃ Q'' lastQ, Q = Q'' ++ [lastQ] := by
    rcases List.eq_nil_or_concat Q with h | ⟨L, b, h⟩
    · exact absurd h hQne
    · exact ⟨L, b, by rw [h, List.concat_eq_append]⟩
  have hlast2 : (P ++ ([] : List Char) :: Q).getLast? = some lastQ := by
    rw [hQc, show P ++ ([] : List Char) :: (Q'' ++ [lastQ]) =
      (P ++ ([] : List Char) :: Q'') ++ [lastQ] by simp, List.getLast?_concat]
  have hlastdot : '.' ∉ lastQ := by
    intro hc
    rcases hQok lastQ (by rw [hQc]; simp) with h | ⟨n, hn⟩
    · rw [h] at hc
      cases hc
    · exact absurd rfl
        (hex_char_ne (List.all_eq_true.mp (parseHextet_props hn).2.1 '.' hc)).2.1
  have hexp := v6ExpandV4_no_dot hlast2 hlastdot
  have hPr : (P = [([] : List Char)] ∧ p = 0) ∨
      (P ≠ [] ∧ (∀ r ∈ P, r.isEmpty = false) ∧ P.length = p) := by
    rcases hP with ⟨h1, h2, -⟩ | ⟨-, hlen, hm⟩
    · exact Or.inl ⟨h1, h2⟩
    · refine Or.inr ⟨hPne, ?_, hlen⟩
      intro r hr
      obtain ⟨n, hn⟩ := mapM_option_isSome hm r hr
      cases hc : r.isEmpty
      · rfl
      · exact absurd (List.isEmpty_iff.mp hc) (parseHextet_props hn).1
  have hQr : (Q = [([] : List Char)] ∧ q = 0) ∨
      (Q ≠ [] ∧ (∀ r ∈ Q, r.isEmpty = false) ∧ Q.length = q) := by
    rcases hQ with ⟨h1, h2, -⟩ | ⟨-, hlen, hm⟩
    · exact Or.inl ⟨h1, h2⟩
    · refine Or.inr ⟨hQne, ?_, hlen⟩
      intro r hr
      obtain ⟨n, hn⟩ := mapM_option_isSome hm r hr
      cases hc : r.isEmpty
      · rfl
      · exact absurd (List.isEmpty_iff.mp hc) (parseHextet_props hn).1
  have hres := v6Resolve_shape P Q p q hPr hQr hpq
  have hPa : (P = [([] : List Char)] ∧ p = 0 ∧ pv = []) ∨
      (P.length = p ∧ P.mapM parseHextet = some pv) := by
    rcases hP with h | ⟨-, h1, h2⟩
    · exact Or.inl h
    · exact Or.inr ⟨h1, h2⟩
  have hQa : (Q = [([] : List Char)] ∧ q = 0 ∧ qv = []) ∨
      (Q.length = q ∧ Q.mapM parseHextet = some qv) := by
    rcases hQ with h | ⟨-, h1, h2⟩
    · exact Or.inl h
    · exact Or.inr ⟨h1, h2⟩
  have hasm := v6Assemble_shape P Q p q (8 - (p + q)) pv qv hPa hQa
  have hwlen : (P ++ ([] : List Char) :: Q).length = P.length + Q.length + 1 := by
    simp only [List.length_append, List.length_cons]
    omega
  have hPlen1 : 0 < P.length := List.length_pos.mpr hPne
  have hQlen1 : 0 < Q.length := List.length_pos.mpr hQne
  unfold parseIPv6AddressChars
  rw [if_neg hni, hsplit]
  rw [if_neg (by rw [hwlen]; omega)]
  simp only [hexp]
  rw [if_neg (by rw [hwlen]; omega)]
  simp only [hres]
  exact hasm

theorem compressCore_parse {x : Nat} (hx : x < 2 ^ 128) (s b : Nat) (hb : 1 < b)
    (hbound : s + b ≤ ((digitsBE 65536 8 x).map toHexChars).length)
    (hrun : ∀ i (h : i < ((digitsBE 65536 8 x).map toHexChars).length),
      s ≤ i → i < s + b → ((digitsBE 65536 8 x).map toHexChars)[i] = ['0']) :
    parseIPv6AddressChars (joinSep ':'
      (compressCore ((digitsBE 65536 8 x).map toHexChars) s (s + b))) = some x := by
  have hlen : (digitsBE 65536 8 x).length = 8 := digitsBE_length 65536 8 x
  have hlt : ∀ v ∈ digitsBE 65536 8 x, v < 65536 :=
    fun v hv => digitsBE_lt 65536 (by norm_num) 8 x v hv
  have hxlen : ((digitsBE 65536 8 x).map toHexChars).length = 8 := by
    rw [List.length_map, hlen]
  rw [hxlen] at hbound
  have hfold : foldHextets 0 (digitsBE 65536 8 x) = x := by
    rw [foldHextets_eq_foldl _ hlt 0, digitsBE_fold]
    exact Nat.mod_eq_of_lt (lt_of_lt_of_le hx (by norm_num))
  have hvz : ∀ i (h : i < (digitsBE 65536 8 x).length), s ≤ i → i < s + b →
      (digitsBE 65536 8 x)[i] = 0 := by
    intro i hi hge hlt2
    have hmi : i < ((digitsBE 65536 8 x).map toHexChars).length := by
      rw [List.length_map]
      exact hi
    have h0 := hrun i hmi hge hlt2
    rw [List.getElem_map] at h0
    exact (toHexChars_zero_iff (hlt _ (List.getElem_mem _))).mp h0
  have htakeM : (((digitsBE 65536 8 x).map toHexChars).take s).mapM parseHextet =
      some ((digitsBE 65536 8 x).take s) := by
    rw [← List.map_take]
    exact mapM_option_roundtrip
      (fun v hv => toHexChars_hextet v (hlt v (List.take_subset _ _ hv)))
  have hdropM : (((digitsBE 65536 8 x).map toHexChars).drop (s + b)).mapM
      parseHextet = some ((digitsBE 65536 8 x).drop (s + b)) := by
    rw [← List.map_drop]
    exact mapM_option_roundtrip
      (fun v hv => toHexChars_hextet v (hlt v (List.drop_subset _ _ hv)))
  have hdrop8 : (digitsBE 65536 8 x).drop 8 = [] := by
    rw [← hlen]
    exact List.drop_length _
  have hpad8 : s + b = 8 → compressPad ((digitsBE 65536 8 x).map toHexChars) (s + b)
      = ((digitsBE 65536 8 x).map toHexChars) ++ [[]] := by
    intro he
    unfold compressPad
    rw [if_pos (by omega)]
  have hpadlt : s + b ≠ 8 → compressPad ((digitsBE 65536 8 x).map toHexChars) (s + b)
      = (digitsBE 65536 8 x).map toHexChars := by
    intro he
    unfold compressPad
    rw [if_neg (by omega)]
  have htake8 : s + b = 8 →
      (((digitsBE 65536 8 x).map toHexChars) ++ [([] : List Char)]).take s =
        ((digitsBE 65536 8 x).map toHexChars).take s :=
    fun he => List.take_append_of_le_length (by omega)
  have hdropP8 : s + b = 8 →
      (((digitsBE 65536 8 x).map toHexChars) ++ [([] : List Char)]).drop (s + b) =
        [([] : List Char)] := by
    intro he
    rw [show s + b = ((digitsBE 65536 8 x).map toHexChars).length by omega]
    exact List.drop_left _ _
  have main : ∀ (P Q : List (List Char)),
      compressCore ((digitsBE 65536 8 x).map toHexChars) s (s + b) =
        P ++ ([] : List Char) :: Q →
      ((P = [([] : List Char)] ∧ s = 0 ∧ (digitsBE 65536 8 x).take s = []) ∨
        (0 < s ∧ P.length = s ∧ P.mapM parseHextet =
          some ((digitsBE 65536 8 x).take s))) →
      ((Q = [([] : List Char)] ∧ 8 - (s + b) = 0 ∧
          (digitsBE 65536 8 x).drop (s + b) = []) ∨
        (0 < 8 - (s + b) ∧ Q.length = 8 - (s + b) ∧ Q.mapM parseHextet =
          some ((digitsBE 65536 8 x).drop (s + b)))) →
      P.length + Q.length ≤ 8 →
      parseIPv6AddressChars (joinSep ':'
        (compressCore ((digitsBE 65536 8 x).map toHexChars) s (s + b))) = some x := by
    intro P Q hshape hPside hQside hl8
    rw [hshape]
    rw [parse_compressed P Q s (8 - (s + b)) ((digitsBE 65536 8 x).take s)
      ((digitsBE 65536 8 x).drop (s + b)) hPside hQside (by omega) hl8]
    have harith : 8 - (s + (8 - (s + b))) = s + b - s := by omega
    rw [harith]
    rw [fold_split_zeros (by omega) (by omega) hvz]
    rw [hfold]
  by_cases hs0 : s = 0 <;> by_cases he8 : s + b = 8
  · refine main [([] : List Char)] [([] : List Char)] ?_ ?_ ?_ ?_
    · unfold compressCore
      rw [if_pos hs0, hpad8 he8, htake8 he8, hdropP8 he8, hs0, List.take_zero]
      simp
    · exact Or.inl ⟨rfl, hs0, by rw [hs0, List.take_zero]⟩
    · exact Or.inl ⟨rfl, by omega, by rw [he8]; exact hdrop8⟩
    · simp
  · refine main [([] : List Char)]
      (((digitsBE 65536 8 x).map toHexChars).drop (s + b)) ?_ ?_ ?_ ?_
    · unfold compressCore
      rw [if_pos hs0, hpadlt he8, hs0, List.take_zero]
      simp
    · exact Or.inl ⟨rfl, hs0, by rw [hs0, List.take_zero]⟩
    · refine Or.inr ⟨by omega, ?_, hdropM⟩
      rw [List.length_drop, hxlen]
    · rw [List.length_drop, hxlen]
      simp only [List.length_singleton]
      omega
  · refine main (((digitsBE 65536 8 x).map toHexChars).take s) [([] : List Char)]
      ?_ ?_ ?_ ?_
    · unfold compressCore
      rw [if_neg hs0, hpad8 he8, htake8 he8, hdropP8 he8]
      simp
    · refine Or.inr ⟨by omega, ?_, htakeM⟩
      rw [List.length_take, hxlen]
      omega
    · exact Or.inl ⟨rfl, by omega, by rw [he8]; exact hdrop8⟩
    · rw [List.length_take, hxlen]
      simp only [List.length_singleton]
      omega
  · refine main (((digitsBE 65536 8 x).map toHexChars).take s)
      (((digitsBE 65536 8 x).map toHexChars).drop (s + b)) ?_ ?_ ?_ ?_
    · unfold compressCore
      rw [if_neg hs0, hpadlt he8]
      simp
    · refine Or.inr ⟨by omega, ?_, htakeM⟩
      rw [List.length_take, hxlen]
      omega
    · refine Or.inr ⟨by omega, ?_, hdropM⟩
      rw [List.length_drop, hxlen]
    · rw [List.length_take, List.length_drop, hxlen]
      omega

theorem printIPv6Chars_parse {x : Nat} (hx : x < 2 ^ 128) :
    parseIPv6AddressChars (printIPv6Chars x) = some x := by
  have hlen : (digitsBE 65536 8 x).length = 8 := digitsBE_length 65536 8 x
  have hxlen : ((digitsBE 65536 8 x).map toHexChars).length = 8 := by
    rw [List.length_map, hlen]
  have hlt : ∀ v ∈ digitsBE 65536 8 x, v < 65536 :=
    fun v hv => digitsBE_lt 65536 (by norm_num) 8 x v hv
  unfold printIPv6Chars compressHextets
  by_cases hbl : 1 < (((digitsBE 65536 8 x).map toHexChars).enum.foldl
      compressStep ⟨-1, 0, -1, 0⟩).bestLen
  · rw [if_pos hbl]
    obtain ⟨-, hbound, hrun⟩ := compress_best_run hbl
    exact compressCore_parse hx _ _ hbl hbound hrun
  · rw [if_neg hbl]
    have hmap : ((digitsBE 65536 8 x).map toHexChars).mapM parseHextet =
        some (digitsBE 65536 8 x) :=
      mapM_option_roundtrip (fun v hv => toHexChars_hextet v (hlt v hv))
    rw [parse_uncompressed _ _ hxlen hmap]
    have hfold : foldHextets 0 (digitsBE 65536 8 x) = x := by
      rw [foldHextets_eq_foldl _ hlt 0, digitsBE_fold]
      exact Nat.mod_eq_of_lt (lt_of_lt_of_le hx (by norm_num))
    rw [hfold]

/-! ## Lemmas: `str(...)` round-trips through `ip_address` -/

set_option maxHeartbeats 1000000 in
theorem ip_addressE_print (a : IPAddr) (ha : a.value < 2 ^ widthV a.version) :
    ip_addressE (some (addrToString a)) = .ok a := by
  obtain ⟨ver, v⟩ := a
  cases ver
  · have hp : parseIPv4AddressChars (addrToString ⟨IPVersion.v4, v⟩).data = some v :=
      printIPv4Chars_parse ha
    unfold ip_addressE
    rw [IPv4AddressE_eq_ok hp]
  · have hp : parseIPv6AddressChars (addrToString ⟨IPVersion.v6, v⟩).data = some v :=
      printIPv6Chars_parse ha
    have hc : ':' ∈ (addrToString ⟨IPVersion.v6, v⟩).data :=
      parseIPv6AddressChars_has_colon hp
    have h4 : parseIPv4AddressChars (addrToString ⟨IPVersion.v6, v⟩).data = none := by
      cases hq : parseIPv4AddressChars (addrToString ⟨IPVersion.v6, v⟩).data with
      | none => rfl
      | some m => exact absurd hc (parseIPv4AddressChars_no_colon hq)
    unfold ip_addressE
    rw [IPv4AddressE_eq_err h4, IPv6AddressE_eq_ok hp]

theorem ip_only_addr_lt {v : Option String} {a : IPAddr}
    (h : ip_only_addr v = .ok (some a)) : a.value < 2 ^ widthV a.version := by
  unfold ip_only_addr at h
  split at h
  · rename_i a0 h1
    injection h with h
    injection h with h
    subst h
    exact ip_addressE_lt h1
  · rename_i e1 h1
    split at h
    · rename_i i h2
      injection h with h
      injection h with h
      subst h
      obtain ⟨s, -, hc⟩ := ip_interfaceE_cases h2
      rcases hc with ⟨h4, hp⟩ | ⟨h6, -, hp⟩
      · show i.addr < 2 ^ widthV i.version
        rw [h4]
        exact (parseIPv4InterfaceChars_bounds hp).1
      · show i.addr < 2 ^ widthV i.version
        rw [h6]
        exact (parseIPv6InterfaceChars_bounds hp).1
    · rename_i e2 h2
      split at h
      · rename_i n h3
        injection h with h
        injection h with h
        subst h
        exact (ip_networkE_props h3).1
      · rename_i e3 h3
        injection h with h
        exact Option.noConfusion h

theorem ip_only_addr_total (v : Option String) : ∃ r, ip_only_addr v = .ok r := by
  unfold ip_only_addr
  cases ip_addressE v with
  | ok a => exact ⟨some a, rfl⟩
  | error e =>
    cases ip_interfaceE v with
    | ok i => exact ⟨some ⟨i.version, i.addr⟩, rfl⟩
    | error e2 =>
      cases ip_networkE v with
      | ok n => exact ⟨some ⟨n.version, n.networkAddress⟩, rfl⟩
      | error e3 => exact ⟨none, rfl⟩

theorem ip_only_addr_spec (v : Option String) :
    (ip_only_addr v = .ok none → ip_only v = .ok none) ∧
    (∀ a, ip_only_addr v = .ok (some a) →
      ip_only v = .ok (some (addrToString a))) := by
  constructor
  · intro h
    unfold ip_only_addr at h
    unfold ip_only
    split at h
    · rename_i a0 h1
      injection h with h
      exact Option.noConfusion h
    · split at h
      · rename_i i h2
        injection h with h
        exact Option.noConfusion h
      · split at h
        · rename_i n h3
          injection h with h
          exact Option.noConfusion h
        · rfl
  · intro a h
    unfold ip_only_addr at h
    unfold ip_only
    split at h
    · rename_i a0 h1
      injection h with h
      injection h with h
      subst h
      rfl
    · split at h
      · rename_i i h2
        injection h with h
        injection h with h
        subst h
        rfl
      · split at h
        · rename_i n h3
          injection h with h
          injection h with h
          subst h
          rfl
        · injection h with h
          exact Option.noConfusion h

/-! ## Claim theorems -/

/-- C5: no core operation and no bound function ever propagates an exception
to its caller: for every input (including a `None` text value), each of the
nine predicates, `ip_only`, `in_subnet`, every function wrapped by
`make_nsf`, and `nsf_in_subnet` terminates with a normal `.ok` result,
degrading to a negative boolean or `None` sentinel on unrecognized input. -/
theorem C5_no_exception_propagation :
    (∀ v, ∃ b, is_any_ip4 v = .ok b) ∧ (∀ v, ∃ b, is_net_ip4 v = .ok b) ∧
    (∀ v, ∃ b, is_host_ip4 v = .ok b) ∧ (∀ v, ∃ b, is_any_ip6 v = .ok b) ∧
    (∀ v, ∃ b, is_net_ip6 v = .ok b) ∧ (∀ v, ∃ b, is_host_ip6 v = .ok b) ∧
    (∀ v, ∃ b, is_any_ip v = .ok b) ∧ (∀ v, ∃ b, is_host_ip v = .ok b) ∧
    (∀ v, ∃ b, is_net_ip v = .ok b) ∧ (∀ v, ∃ r, ip_only v = .ok r) ∧
    (∀ v s, ∃ b, in_subnet v s = .ok b) ∧
    (∀ f ele, ∃ r, make_nsf f ele = .ok r) ∧
    (∀ ele s, ∃ b, nsf_in_subnet ele s = .ok b) :=
  ⟨is_any_ip4_total, is_net_ip4_total, is_host_ip4_total, is_any_ip6_total,
    is_net_ip6_total, is_host_ip6_total, is_any_ip_total, is_host_ip_total,
    is_net_ip_total, ip_only_total, in_subnet_total, make_nsf_total,
    nsf_in_subnet_total⟩

/-- C9: a bound function returns `False` when the node set is empty or the
first node's text cannot be obtained, and otherwise applies the wrapped core
operation to the first node's text; likewise for the in-subnet binding. -/
theorem C9_binding_failure_policy :
    (∀ f, make_nsf f [] = .ok (some false)) ∧
    (∀ f n rest, nodeTextE n = .error .err → make_nsf f (n :: rest) = .ok (some false)) ∧
    (∀ f t rest r, f t = .ok r → make_nsf f (XNode.elem t :: rest) = .ok r) ∧
    (∀ s, nsf_in_subnet [] s = .ok false) ∧
    (∀ s n rest, nodeTextE n = .error .err → nsf_in_subnet (n :: rest) s = .ok false) ∧
    (∀ t rest s b, in_subnet t s = .ok b →
      nsf_in_subnet (XNode.elem t :: rest) s = .ok b) := by
  refine ⟨fun f => rfl, ?_, ?_, fun s => rfl, ?_, ?_⟩
  · intro f n rest h
    simp [make_nsf, h]
  · intro f t rest r h
    simp [make_nsf, nodeTextE, h]
  · intro s n rest h
    simp [nsf_in_subnet, h]
  · intro t rest s b h
    simp [nsf_in_subnet, nodeTextE, h]

/-- Witness for C9 at concrete inputs: a wrapped predicate applied to an
element holding `"10.1.2.3"`, and the in-subnet binding on a node whose
text access raises. -/
theorem C9_binding_failure_policy_witness :
    make_nsf (liftPB is_any_ip) [XNode.elem (some "10.1.2.3")] = .ok (some true) ∧
    nsf_in_subnet [XNode.noText] (some "10.0.0.0/8") = .ok false :=
  ⟨C9_binding_failure_policy.2.2.1 (liftPB is_any_ip) (some "10.1.2.3") [] (some true) rfl,
    C9_binding_failure_policy.2.2.2.2.1 (some "10.0.0.0/8") XNode.noText [] rfl⟩

/-- C7: `in_subnet` tests the address extracted by `ip_only`, so network and
interface forms are accepted as its first argument: its result depends on
the value only through `ip_only`, and `"10.10.0.0/16"` (whose extracted
base address is `10.10.0.0`) is reported inside `10.0.0.0/8`. -/
theorem C7_accepts_network_and_interface_forms :
    (∀ v1 v2 s, ip_only v1 = ip_only v2 → in_subnet v1 s = in_subnet v2 s) ∧
    ip_only (some "10.10.0.0/16") = .ok (some "10.10.0.0") ∧
    in_subnet (some "10.10.0.0/16") (some "10.0.0.0/8") = .ok true ∧
    in_subnet (some "10.1.2.3/24") (some "10.0.0.0/8") = .ok true := by
  refine ⟨?_, rfl, rfl, rfl⟩
  intro v1 v2 s h
  unfold in_subnet
  rw [h]

/-- Witness for C7: the dependence-through-`ip_only` part applied at a
network-form left argument. -/
theorem C7_accepts_network_and_interface_forms_witness :
    in_subnet (some "10.10.0.0/16") (some "10.0.0.0/8") =
      in_subnet (some "10.10.0.0/16") (some "10.0.0.0/8") :=
  C7_accepts_network_and_interface_forms.1 (some "10.10.0.0/16")
    (some "10.10.0.0/16") (some "10.0.0.0/8") rfl

/-- C8: the predicates and `in_subnet` are pure functions and the
`lru_cache` on `_to_subnet` is pure memoization: starting from any
consistent cache state (the empty cache is consistent, and every call
preserves consistency), `in_subnet` with the cache returns exactly the
cacheless `in_subnet` result, and an immediately repeated call with the
same arguments returns the same result on the updated cache. -/
theorem C8_cache_pure_memoization :
    CacheOK ([] : SubnetCache) ∧
    ∀ (c : SubnetCache) (v s : Option String), CacheOK c →
      (in_subnet_cached v s c).1 = in_subnet v s ∧
      CacheOK (in_subnet_cached v s c).2 ∧
      (in_subnet_cached v s (in_subnet_cached v s c).2).1 =
        (in_subnet_cached v s c).1 := by
  refine ⟨fun p hp => absurd hp (List.not_mem_nil p), ?_⟩
  intro c v s hc
  refine ⟨in_subnet_cached_fst hc, in_subnet_cached_snd hc, ?_⟩
  rw [in_subnet_cached_fst (in_subnet_cached_snd hc), in_subnet_cached_fst hc]

/-- Witness for C8 at a concrete subnet check starting from the empty
cache. -/
theorem C8_cache_pure_memoization_witness :
    (in_subnet_cached (some "10.10.5.5") (some "10.10.0.0/16") []).1 =
      in_subnet (some "10.10.5.5") (some "10.10.0.0/16") :=
  (C8_cache_pure_memoization.2 [] (some "10.10.5.5") (some "10.10.0.0/16")
    (by intro p hp; exact absurd hp (List.not_mem_nil p))).1

/-- C6: `is_any_ip` and `is_net_ip` are the boolean OR of their family
variants with IPv4 evaluated first. `is_host_ip` is Python's
`is_host_ip4(value) or is_host_ip6(value)`, and because `is_host_ip6` falls
off its end (missing `return False`), on text that is no host address the
result is `None`, not the boolean `false` — evaluated at `"hello"`. -/
theorem C6_or_composition_and_host_none :
    (∀ v b4 b6, is_any_ip4 v = .ok b4 → is_any_ip6 v = .ok b6 →
      is_any_ip v = .ok (b4 || b6)) ∧
    (∀ v b4 b6, is_net_ip4 v = .ok b4 → is_net_ip6 v = .ok b6 →
      is_net_ip v = .ok (b4 || b6)) ∧
    (∀ v, is_host_ip4 v = .ok true → is_host_ip v = .ok (some true)) ∧
    (∀ v, is_host_ip4 v = .ok false → is_host_ip v = is_host_ip6 v) ∧
    is_host_ip4 (some "hello") = .ok false ∧
    is_host_ip6 (some "hello") = .ok none ∧
    is_host_ip (some "hello") = .ok none ∧
    is_host_ip (some "hello") ≠ .ok (some (false || false)) := by
  refine ⟨?_, ?_, ?_, ?_, rfl, rfl, rfl, ?_⟩
  · intro v b4 b6 h4 h6
    unfold is_any_ip
    rw [h4]
    cases b4 with
    | true => simp
    | false => simpa using h6
  · intro v b4 b6 h4 h6
    unfold is_net_ip
    rw [h4]
    cases b4 with
    | true => simp
    | false => simpa using h6
  · intro v h4
    unfold is_host_ip
    rw [h4]
    rfl
  · intro v h4
    unfold is_host_ip
    rw [h4]
    rfl
  · intro hcon
    have h0 : is_host_ip (some "hello") = .ok none := rfl
    rw [h0] at hcon
    injection hcon with hcon
    exact Option.noConfusion hcon

/-- Witness for C6's universally quantified parts at `"10.10.0.0/16"`. -/
theorem C6_or_composition_and_host_none_witness :
    is_any_ip (some "10.10.0.0/16") = .ok (true || false) ∧
    is_net_ip (some "10.10.0.0/16") = .ok (true || false) ∧
    is_host_ip (some "10.1.2.3") = .ok (some true) ∧
    is_host_ip (some "fe80::1") = is_host_ip6 (some "fe80::1") :=
  ⟨C6_or_composition_and_host_none.1 (some "10.10.0.0/16") true false rfl rfl,
    C6_or_composition_and_host_none.2.1 (some "10.10.0.0/16") true false rfl rfl,
    C6_or_composition_and_host_none.2.2.1 (some "10.1.2.3") rfl,
    C6_or_composition_and_host_none.2.2.2.1 (some "fe80::1") rfl⟩

/-- C2: when the text parses as no IP form (both `is_any` families are
`False`), every remaining predicate built directly on a parse returns
`False` and `ip_only` returns `None` — but `is_host_ip6` and hence
`is_host_ip` return `None` rather than the boolean `false`, contradicting
the claim; evaluated at the failing input `"hello"`. -/
theorem C2_unparsable_text :
    (∀ v, is_any_ip4 v = .ok false → is_any_ip6 v = .ok false →
      is_net_ip4 v = .ok false ∧ is_host_ip4 v = .ok false ∧
      is_net_ip6 v = .ok false ∧ is_host_ip6 v = .ok none ∧
      is_any_ip v = .ok false ∧ is_host_ip v = .ok none ∧
      is_net_ip v = .ok false ∧ ip_only v = .ok none) ∧
    is_any_ip4 (some "hello") = .ok false ∧ is_any_ip6 (some "hello") = .ok false ∧
    is_host_ip6 (some "hello") = .ok none ∧ is_host_ip (some "hello") = .ok none ∧
    ip_only (some "hello") = .ok none ∧
    is_host_ip6 (some "hello") ≠ .ok (some false) ∧
    is_host_ip (some "hello") ≠ .ok (some false) := by
  refine ⟨?_, rfl, rfl, rfl, rfl, rfl, ?_, ?_⟩
  · intro v h4 h6
    obtain ⟨hn4, hi4, ha4⟩ := is_any_ip4_false h4
    obtain ⟨hn6, hi6, ha6⟩ := is_any_ip6_false h6
    refine ⟨by simp [is_net_ip4, hn4, hi4], by simp [is_host_ip4, ha4],
      by simp [is_net_ip6, hn6, hi6], by simp [is_host_ip6, ha6],
      by simp [is_any_ip, h4, h6], ?_, ?_, ?_⟩
    · simp [is_host_ip, is_host_ip4, ha4, is_host_ip6, ha6]
    · simp [is_net_ip, is_net_ip4, is_net_ip6, hn4, hi4, hn6, hi6]
    · simp [ip_only, ip_addressE, ip_interfaceE, ip_networkE, ha4, ha6, hi4,
        hi6, hn4, hn6]
  · intro hcon
    have h0 : is_host_ip6 (some "hello") = .ok none := rfl
    rw [h0] at hcon
    injection hcon with hcon
    exact Option.noConfusion hcon
  · intro hcon
    have h0 : is_host_ip (some "hello") = .ok none := rfl
    rw [h0] at hcon
    injection hcon with hcon
    exact Option.noConfusion hcon

/-- Witness for C2's universally quantified part at `"hello"`. -/
theorem C2_unparsable_text_witness :
    is_net_ip4 (some "hello") = .ok false ∧ is_host_ip4 (some "hello") = .ok false ∧
    is_net_ip6 (some "hello") = .ok false ∧ is_host_ip6 (some "hello") = .ok none ∧
    is_any_ip (some "hello") = .ok false ∧ is_host_ip (some "hello") = .ok none ∧
    is_net_ip (some "hello") = .ok false ∧ ip_only (some "hello") = .ok none :=
  C2_unparsable_text.1 (some "hello") rfl rfl

/-- C1: a network/interface string whose prefix length equals the family's
full width (32 for IPv4, 128 for IPv6) counts as a host, not a net:
`is_net_ip4` is `False` on it while `is_any_ip4` is `True`; a network
string with a strictly shorter prefix makes `is_net_ip4` `True` and
`is_host_ip4` `False`. On the IPv6 side `is_net_ip6`/`is_any_ip6` behave
analogously, but on a network string with prefix `< 128` the code's
`is_host_ip6` returns `None` — the function body has no final
`return False` — rather than the `False` the claim asserts. -/
theorem C1_full_prefix_host_boundary :
    (∀ s v, parseIPv4InterfaceChars s.data = some (v, 32) →
      is_net_ip4 (some s) = .ok false ∧ is_any_ip4 (some s) = .ok true) ∧
    (∀ s v p, parseIPv4NetworkChars s.data = some (v, p) → p < 32 →
      is_net_ip4 (some s) = .ok true ∧ is_host_ip4 (some s) = .ok false) ∧
    (∀ s v, parseIPv6InterfaceChars s.data = some (v, 128) →
      is_net_ip6 (some s) = .ok false ∧ is_any_ip6 (some s) = .ok true) ∧
    (∀ s v p, parseIPv6NetworkChars s.data = some (v, p) → p < 128 →
      is_net_ip6 (some s) = .ok true ∧ is_host_ip6 (some s) = .ok none) := by
  refine ⟨?_, ?_, ?_, ?_⟩
  · intro s v h
    have hn := network_of_interface_full_v4 h
    exact ⟨by simp [is_net_ip4, IPv4NetworkE, hn],
      by simp [is_any_ip4, IPv4NetworkE, hn]⟩
  · intro s v p hn hp
    obtain ⟨hi, -⟩ := parseIPv4NetworkChars_inv hn
    have hsl : '/' ∈ s.data := interface_slash_of_prefix_ne_v4 hi (by omega)
    refine ⟨by simp [is_net_ip4, IPv4NetworkE, hn, Nat.ne_of_lt hp], ?_⟩
    simp [is_host_ip4, IPv4AddressE, parseIPv4AddressChars_slash_none hsl]
  · intro s v h
    have hn := network_of_interface_full_v6 h
    exact ⟨by simp [is_net_ip6, IPv6NetworkE, hn],
      by simp [is_any_ip6, IPv6NetworkE, hn]⟩
  · intro s v p hn hp
    obtain ⟨hi, -⟩ := parseIPv6NetworkChars_inv hn
    have hsl : '/' ∈ s.data := interface_slash_of_prefix_ne_v6 hi (by omega)
    refine ⟨by simp [is_net_ip6, IPv6NetworkE, hn, Nat.ne_of_lt hp], ?_⟩
    simp [is_host_ip6, IPv6AddressE, parseIPv6AddressChars_slash_none hsl]

/-- Witness for C1 at `"10.1.2.3/32"`, `"10.10.0.0/16"`, `"fe80::1/128"`
and `"fe80::/64"`; the last conjunct exhibits the `None` divergence. -/
theorem C1_full_prefix_host_boundary_witness :
    is_net_ip4 (some "10.1.2.3/32") = .ok false ∧
    is_any_ip4 (some "10.1.2.3/32") = .ok true ∧
    is_net_ip4 (some "10.10.0.0/16") = .ok true ∧
    is_host_ip4 (some "10.10.0.0/16") = .ok false ∧
    is_net_ip6 (some "fe80::1/128") = .ok false ∧
    is_any_ip6 (some "fe80::1/128") = .ok true ∧
    is_net_ip6 (some "fe80::/64") = .ok true ∧
    is_host_ip6 (some "fe80::/64") = .ok none := by
  obtain ⟨h1, h2, h3, h4⟩ := C1_full_prefix_host_boundary
  obtain ⟨a1, a2⟩ := h1 "10.1.2.3/32" 167838211 (by rfl)
  obtain ⟨c1, c2⟩ := h2 "10.10.0.0/16" 168427520 16 (by rfl) (by decide)
  obtain ⟨b1, b2⟩ :=
    h3 "fe80::1/128" 338288524927261089654018896841347694593 (by rfl)
  obtain ⟨d1, d2⟩ :=
    h4 "fe80::/64" 338288524927261089654018896841347694592 64 (by rfl) (by decide)
  exact ⟨a1, a2, c1, c2, b1, b2, d1, d2⟩

/-- C10: the subnet argument of `in_subnet` goes through the strict
`ip_network` parse; whenever that parse fails — in particular for any IPv4
interface string with host bits set beyond the prefix — `in_subnet`
returns `False` for every value argument, even though the same string is
accepted as an interface form elsewhere. -/
theorem C10_strict_subnet_argument :
    (∀ s, to_subnet s = .error .err → ∀ v, in_subnet v s = .ok false) ∧
    (∀ s a p, parseIPv4InterfaceChars s.data = some (a, p) →
      a &&& netmaskInt 32 p ≠ a →
      to_subnet (some s) = .error .err ∧ ∀ v, in_subnet v (some s) = .ok false) := by
  have key : ∀ s, to_subnet s = .error .err → ∀ v, in_subnet v s = .ok false := by
    intro s hs v
    unfold in_subnet
    cases hv : ip_only v with
    | error e => rfl
    | ok x =>
      cases ha : ip_addressE x with
      | error e => simp [ha]
      | ok a => simp [ha, hs]
  refine ⟨key, ?_⟩
  intro s a p hi hmask
  have hnc : ':' ∉ s.data := parseIPv4InterfaceChars_no_colon hi
  have h4 : parseIPv4NetworkChars s.data = none := by
    unfold parseIPv4NetworkChars
    rw [hi]
    simp [hmask]
  have h6 : parseIPv6NetworkChars s.data = none :=
    parseIPv6NetworkChars_no_colon_none hnc
  have hts : to_subnet (some s) = .error .err := by
    simp [to_subnet, ip_networkE, IPv4NetworkE, IPv6NetworkE, h4, h6]
  exact ⟨hts, key (some s) hts⟩

/-- Witness for C10 at `"10.10.5.5/16"` (host bits below `/16` set) and at
the unparsable subnet `"hello"`; `is_net_ip4` accepts the same string. -/
theorem C10_strict_subnet_argument_witness :
    to_subnet (some "10.10.5.5/16") = .error .err ∧
    in_subnet (some "10.10.5.5") (some "10.10.5.5/16") = .ok false ∧
    is_net_ip4 (some "10.10.5.5/16") = .ok true ∧
    in_subnet (some "10.0.0.1") (some "hello") = .ok false := by
  obtain ⟨key, h2⟩ := C10_strict_subnet_argument
  obtain ⟨hts, hall⟩ := h2 "10.10.5.5/16" 168428805 16 (by rfl) (by decide)
  exact ⟨hts, hall (some "10.10.5.5"), by rfl,
    key (some "hello") (by rfl) (some "10.0.0.1")⟩

/-- C4: `ip_only` tries bare-address, then interface, then network parsing,
and returns the canonical string of the extracted address: the address
itself for a bare address, the address part for an interface form, and the
network's base (network) address for a network form — which is the least
address the network contains, never an arbitrary host within it. -/
theorem C4_extract_address :
    (∀ v a, ip_addressE v = .ok a → ip_only v = .ok (some (addrToString a))) ∧
    (∀ v i, ip_addressE v = .error .err → ip_interfaceE v = .ok i →
      ip_only v = .ok (some (addrToString ⟨i.version, i.addr⟩))) ∧
    (∀ s n, ip_networkE (some s) = .ok n →
      ip_only (some s) = .ok (some (addrToString ⟨n.version, n.networkAddress⟩))) ∧
    (∀ s n, to_subnet s = .ok n → ∀ a, netContains n a = true →
      n.networkAddress ≤ a.value) ∧
    ip_only (some "10.1.2.3") = .ok (some "10.1.2.3") ∧
    ip_only (some "10.1.2.3/24") = .ok (some "10.1.2.3") ∧
    ip_only (some "10.10.0.0/16") = .ok (some "10.10.0.0") := by
  refine ⟨?_, ?_, fun s n h => ip_only_of_network h, ?_, by rfl, by rfl, by rfl⟩
  · intro v a h
    simp [ip_only, h]
  · intro v i he hi
    simp [ip_only, he, hi]
  · intro s n hn a hc
    unfold netContains at hc
    split_ifs at hc with hver
    exact (of_decide_eq_true hc).1

/-- Witness for C4's quantified parts at `"10.1.2.3"`, `"10.1.2.3/24"`,
`"10.10.0.0/16"` and `"10.0.0.0/8"`. -/
theorem C4_extract_address_witness :
    ip_only (some "10.1.2.3") = .ok (some "10.1.2.3") ∧
    ip_only (some "10.1.2.3/24") = .ok (some "10.1.2.3") ∧
    ip_only (some "10.10.0.0/16") = .ok (some "10.10.0.0") ∧
    (167772160 : Nat) ≤ 167838211 := by
  obtain ⟨h1, h2, h3, h4, -⟩ := C4_extract_address
  exact ⟨h1 (some "10.1.2.3") ⟨.v4, 167838211⟩ (by rfl),
    h2 (some "10.1.2.3/24") ⟨.v4, 167838211, 24⟩ (by rfl) (by rfl),
    h3 "10.10.0.0/16" ⟨.v4, 168427520, 16⟩ (by rfl),
    h4 (some "10.0.0.0/8") ⟨.v4, 167772160, 8⟩ (by rfl) ⟨.v4, 167838211⟩ (by decide)⟩

/-- C3: `in_subnet` never raises, and it returns `True` exactly when
`ip_only` extracts an address from the value, the subnet parses as a
strict network, both are of the same family, and the extracted address's
integer value lies between the network address and the broadcast address;
every failure (extraction failure, subnet parse failure, family mismatch)
yields `False`. -/
theorem C3_in_subnet_characterization :
    (∀ v s, ∃ b, in_subnet v s = .ok b) ∧
    (∀ v s, in_subnet v s = .ok true ↔
      ∃ a n, ip_only_addr v = .ok (some a) ∧ to_subnet s = .ok n ∧
        a.version = n.version ∧
        n.networkAddress ≤ a.value ∧ a.value ≤ broadcastInt n) := by
  refine ⟨in_subnet_total, ?_⟩
  intro v s
  constructor
  · intro h
    unfold in_subnet at h
    split at h
    · injection h with h
      exact Bool.noConfusion h
    · rename_i x hx
      split at h
      · injection h with h
        exact Bool.noConfusion h
      · rename_i a ha
        split at h
        · injection h with h
          exact Bool.noConfusion h
        · rename_i n hn
          injection h with h
          unfold netContains at h
          split_ifs at h with hverne
          obtain ⟨hge, hle⟩ := of_decide_eq_true h
          obtain ⟨r, hr⟩ := ip_only_addr_total v
          cases r with
          | none =>
            have hnone := (ip_only_addr_spec v).1 hr
            rw [hnone] at hx
            injection hx with hx
            subst hx
            rw [show ip_addressE none = Except.error PyErr.err from rfl] at ha
            exact Except.noConfusion ha
          | some a1 =>
            have hstr := (ip_only_addr_spec v).2 a1 hr
            rw [hstr] at hx
            injection hx with hx
            subst hx
            have haddr := ip_addressE_print a1 (ip_only_addr_lt hr)
            rw [haddr] at ha
            injection ha with ha
            subst ha
            exact ⟨a1, n, hr, hn, (not_ne_iff.mp hverne).symm, hge, hle⟩
  · rintro ⟨a, n, ha, hn, hver, h1, h2⟩
    have hstr := (ip_only_addr_spec v).2 a ha
    have haddr := ip_addressE_print a (ip_only_addr_lt ha)
    have hcont : netContains n a = true := by
      unfold netContains
      rw [if_neg (fun hne => hne hver.symm)]
      exact decide_eq_true ⟨h1, h2⟩
    unfold in_subnet
    simp only [hstr, haddr, hn, hcont]

/-- Witness for C3: a network-form value inside a wider v4 subnet, and the
cross-family check yielding `False`. -/
theorem C3_in_subnet_characterization_witness :
    in_subnet (some "10.10.0.0/16") (some "10.0.0.0/8") = .ok true ∧
    in_subnet (some "fe80::1") (some "10.0.0.0/8") = .ok false := by
  constructor
  · exact (C3_in_subnet_characterization.2 (some "10.10.0.0/16")
      (some "10.0.0.0/8")).mpr
      ⟨⟨.v4, 168427520⟩, ⟨.v4, 167772160, 8⟩, by rfl, by rfl, rfl,
        by norm_num, by decide⟩
  · rfl

end LxmlIp
